import Mathlib

/-!
# cablastp2: the coarse database and the search driver

A shallow embedding of `coarse.go` (the `CoarseDB` aggregate) and of the parts
of `cmd/cablastp-xsearch/main.go` that decide how arguments, queries and BLAST
hits are processed.

Conventions of the embedding:

* a Go slice that is only appended to is a `List`; `[]byte` is a list of
  byte values held as `Nat` (no arithmetic is done on residues);
* Go `int` is `Int`; lengths are the casts of list lengths;
* a Go method with a pointer receiver takes the receiver's value and returns
  the value after the call;
* the embedding is sequential: of `seqLock` only whether it is nil is kept,
  since locking through a nil `*sync.RWMutex` panics; a method that panics
  returns `none`;
* a Go `error` is `Option Error` (`none` is `nil`), a pointer or slice result
  that may be `nil` is an `Option`.
-/

set_option autoImplicit false

namespace Cablastp

/-- A Go `error` value, kept as its message. -/
abbrev Error := String

/-- An open `*os.File`, identified by its descriptor. -/
structure OsFile where
  fd : Nat
deriving DecidableEq, Repr

/-- Modelled from the spec: the type `CoarseSeq` is declared outside the
sources at hand. The spec gives a coarse sequence as `{id, residues}`; the name
that `Add` passes to the constructor is kept as a third field. -/
structure CoarseSeq where
  Id : Int
  Name : String
  Residues : List Nat
deriving DecidableEq, Repr

/-- Modelled from the spec: `NewCoarseSeq(id, name, residues)` is declared
outside the sources at hand; it builds the coarse sequence with that id, name
and residues. -/
def NewCoarseSeq (id : Int) (name : String) (residues : List Nat) : CoarseSeq :=
  { Id := id, Name := name, Residues := residues }

/-- A `sync.RWMutex`. In the sequential embedding a mutex has no state of its
own: what matters is whether a pointer to one is nil. -/
structure RWMutex where
deriving DecidableEq, Repr

/-- The struct `CoarseDB` of `coarse.go`. The seed table type `Seeds` is
declared outside the sources at hand and is the parameter `σ`. -/
structure CoarseDB (σ : Type) where
  Seqs : List CoarseSeq
  seqsRead : Int
  Seeds : σ
  FileFasta : Option OsFile
  FileSeeds : Option OsFile
  FileLinks : Option OsFile
  seqLock : Option RWMutex
  readOnly : Bool
  plain : Bool
  plainLinks : Option OsFile
  plainSeeds : Option OsFile

section CoarseStore

variable {σ : Type}

/-- The method `CoarseDB.Add`. `seqLock.Lock()` comes first and panics (`none`)
on a nil `seqLock`. Under the lock the id is the current length of `Seqs` and
the new coarse sequence is appended; after the unlock its seeds are added
through `Seeds.Add`. `Seeds.Add` is declared outside the sources at hand and is
the parameter `seedsAdd`, which is given the database as it is when the call
is made (the call's receiver is its field `Seeds`) and returns the seed table
after the call; a `Seeds.Add` that reads its receiver only is a `seedsAdd`
that reads the field `Seeds` only. Returns `(id, corSeq)` and the database
after the call. -/
def CoarseDB.Add (seedsAdd : CoarseDB σ → Int → CoarseSeq → σ) (coarsedb : CoarseDB σ)
    (oseq : List Nat) : Option ((Int × CoarseSeq) × CoarseDB σ) :=
  match coarsedb.seqLock with
  | none => none
  | some _ =>
    let id : Int := coarsedb.Seqs.length
    let corSeq := NewCoarseSeq id "" oseq
    let coarsedb1 := { coarsedb with Seqs := coarsedb.Seqs ++ [corSeq] }
    let coarsedb2 := { coarsedb1 with Seeds := seedsAdd coarsedb1 id corSeq }
    some ((id, corSeq), coarsedb2)

/-- The method `CoarseDB.CoarseSeqGet`: `seqLock.RLock()` panics (`none`) on a
nil `seqLock`, and `Seqs[i]` panics with an index out of range. Returns the
sequence and the database after the call. -/
def CoarseDB.CoarseSeqGet (coarsedb : CoarseDB σ) (i : Int) :
    Option (CoarseSeq × CoarseDB σ) :=
  match coarsedb.seqLock with
  | none => none
  | some _ =>
    if 0 ≤ i then (coarsedb.Seqs[i.toNat]?).map (fun seq => (seq, coarsedb)) else none

/-- A run of successive `Add` calls, one per element of `oseqs`, in order:
the list of returned `(id, corSeq)` pairs and the database after the last
call; `none` when one of the calls panics. -/
def addAll (seedsAdd : CoarseDB σ → Int → CoarseSeq → σ) :
    CoarseDB σ → List (List Nat) → Option (List (Int × CoarseSeq) × CoarseDB σ)
  | coarsedb, [] => some ([], coarsedb)
  | coarsedb, oseq :: rest =>
    match coarsedb.Add seedsAdd oseq with
    | none => none
    | some r =>
      match addAll seedsAdd r.2 rest with
      | none => none
      | some rs => some (r.1 :: rs.1, rs.2)

end CoarseStore

/-! ## Opening, loading and saving: `NewWriteCoarseDB`, `NewReadCoarseDB`, `load`, `Save` -/

def FileCoarseFasta : String := "coarse.fasta"
def FileCoarseLinks : String := "coarse.links"
def FileCoarsePlainLinks : String := "coarse.links.plain"
def FileCoarseSeeds : String := "coarse.seeds"
def FileCoarsePlainSeeds : String := "coarse.seeds.plain"

/-- The calls that `coarse.go` makes to code outside the sources at hand: the
two file-opening methods of `*DB` with their arguments, and the read and save
methods of `*CoarseDB`. -/
inductive Step where
  | openReadFile (name : String)
  | openWriteFile (appnd : Bool) (name : String)
  | readFasta
  | readSeeds
  | readLinks
  | saveFasta
  | saveLinks
  | saveSeeds
  | saveLinksPlain
  | saveSeedsPlain
deriving DecidableEq, Repr

/-- One executed call and the error it returned. -/
structure Event where
  step : Step
  err : Option Error
deriving DecidableEq, Repr

/-- The struct `DB` is declared outside the sources at hand and is taken as a
parameter, as far as `coarse.go` uses it: three configuration fields and the
two file-opening methods, each returning `(*os.File, error)`. -/
structure DB where
  MapSeedSize : Int
  ReadOnly : Bool
  SavePlain : Bool
  openWriteFile : Bool → String → Option OsFile × Option Error
  openReadFile : String → Option OsFile × Option Error

/-- The in-memory state of a coarse database: what `load()` rebuilds. -/
structure Loaded (σ : Type) where
  Seqs : List CoarseSeq
  seqsRead : Int
  Seeds : σ

/-- Modelled from the spec: `NewSeeds` and the methods `readFasta`,
`readSeeds`, `readLinks`, `saveFasta`, `saveLinks`, `saveSeeds`,
`saveLinksPlain`, `saveSeedsPlain` are declared outside the sources at hand.
By the spec `load()` rebuilds in-memory state from files and `save()` flushes
to files: a read method is given by the in-memory state it leaves and the error
it returns, a save method by the error it returns. -/
structure Methods (σ : Type) where
  NewSeeds : Int → σ
  readFasta : CoarseDB σ → Loaded σ × Option Error
  readSeeds : CoarseDB σ → Loaded σ × Option Error
  readLinks : CoarseDB σ → Loaded σ × Option Error
  saveFasta : CoarseDB σ → Option Error
  saveLinks : CoarseDB σ → Option Error
  saveSeeds : CoarseDB σ → Option Error
  saveLinksPlain : CoarseDB σ → Option Error
  saveSeedsPlain : CoarseDB σ → Option Error

section OpenLoadSave

variable {σ : Type}

/-- A piece of a method body working on the receiver `coarsedb`: the calls it
made, the receiver afterwards, and the error it ends with. -/
abbrev Action (σ : Type) := CoarseDB σ → List Event × CoarseDB σ × Option Error

/-- Nothing to do. -/
def Action.skip : Action σ := fun coarsedb => ([], coarsedb, none)

/-- The Go sequence `if err := a(); err != nil { return err }` followed by
`b`: `b` runs only when `a` ended with a nil error. -/
def Action.andThen (a b : Action σ) : Action σ := fun coarsedb =>
  let r := a coarsedb
  match r.2.2 with
  | some err => (r.1, r.2.1, some err)
  | none =>
    let r2 := b r.2.1
    (r.1 ++ r2.1, r2.2.1, r2.2.2)

/-- The Go block `if cond { a }`, the condition read from the receiver. -/
def Action.onlyIf (cond : CoarseDB σ → Bool) (a : Action σ) : Action σ := fun coarsedb =>
  if cond coarsedb then a coarsedb else Action.skip coarsedb

/-- A call of a read method: the in-memory state is replaced by what the
method leaves. -/
def readCall (s : Step) (f : CoarseDB σ → Loaded σ × Option Error) : Action σ :=
  fun coarsedb =>
    let r := f coarsedb
    ([{ step := s, err := r.2 }],
     { coarsedb with Seqs := r.1.Seqs, seqsRead := r.1.seqsRead, Seeds := r.1.Seeds },
     r.2)

/-- A call of a save method. -/
def saveCall (s : Step) (f : CoarseDB σ → Option Error) : Action σ :=
  fun coarsedb => ([{ step := s, err := f coarsedb }], coarsedb, f coarsedb)

/-- The statement `coarsedb.<field>, err = db.openWriteFile(appnd, name)`
followed by `if err != nil { return nil, err }`; `set` stores the file in the
field. -/
def openWrite (db : DB) (appnd : Bool) (name : String)
    (set : CoarseDB σ → Option OsFile → CoarseDB σ) : Action σ :=
  fun coarsedb =>
    let r := db.openWriteFile appnd name
    ([{ step := .openWriteFile appnd name, err := r.2 }], set coarsedb r.1, r.2)

/-- The statement `coarsedb.<field>, err = db.openReadFile(name)` followed by
`if err != nil { return nil, err }`. -/
def openRead (db : DB) (name : String)
    (set : CoarseDB σ → Option OsFile → CoarseDB σ) : Action σ :=
  fun coarsedb =>
    let r := db.openReadFile name
    ([{ step := .openReadFile name, err := r.2 }], set coarsedb r.1, r.2)

/-- The method `CoarseDB.load`: `readFasta`, `readSeeds`, `readLinks`, each
returning its error at once. -/
def CoarseDB.load (m : Methods σ) : Action σ :=
  (readCall .readFasta m.readFasta).andThen
    ((readCall .readSeeds m.readSeeds).andThen
      (readCall .readLinks m.readLinks))

/-- The statements of `CoarseDB.Save` that follow `seqLock.RLock()`. -/
def saveSteps (m : Methods σ) : Action σ :=
  (saveCall .saveFasta m.saveFasta).andThen
    ((saveCall .saveLinks m.saveLinks).andThen
      ((Action.onlyIf (fun c => !c.readOnly) (saveCall .saveSeeds m.saveSeeds)).andThen
        (Action.onlyIf (fun c => c.plain)
          ((saveCall .saveLinksPlain m.saveLinksPlain).andThen
            (Action.onlyIf (fun c => !c.readOnly)
              (saveCall .saveSeedsPlain m.saveSeedsPlain))))))

/-- The method `CoarseDB.Save`: `seqLock.RLock()` comes first and panics
(`none`) on a nil `seqLock`, before any save method is called; then the steps
are run. The calls made, the database after the call and the returned
error. -/
def CoarseDB.Save (m : Methods σ) (coarsedb : CoarseDB σ) :
    Option (List Event × CoarseDB σ × Option Error) :=
  match coarsedb.seqLock with
  | none => none
  | some _ => some (saveSteps m coarsedb)

/-- The Go result `(*CoarseDB, error)` of a constructor whose body is the
action `a` run on the freshly built struct: `(nil, err)` when the body ended
with an error, `(coarsedb, nil)` otherwise. The calls made come first. -/
def construct (a : Action σ) (coarsedb : CoarseDB σ) :
    List Event × Option (CoarseDB σ) × Option Error :=
  let r := a coarsedb
  match r.2.2 with
  | some err => (r.1, none, some err)
  | none => (r.1, some r.2.1, none)

/-- The function `NewWriteCoarseDB`. -/
def NewWriteCoarseDB (m : Methods σ) (appnd : Bool) (db : DB) :
    List Event × Option (CoarseDB σ) × Option Error :=
  let coarsedb : CoarseDB σ :=
    { Seqs := [], seqsRead := 0, Seeds := m.NewSeeds db.MapSeedSize,
      FileFasta := none, FileSeeds := none, FileLinks := none,
      seqLock := some {},
      readOnly := db.ReadOnly, plain := db.SavePlain,
      plainLinks := none, plainSeeds := none }
  construct
    ((openWrite db appnd FileCoarseFasta (fun c f => { c with FileFasta := f })).andThen
      ((openWrite db false FileCoarseSeeds (fun c f => { c with FileSeeds := f })).andThen
        ((openWrite db false FileCoarseLinks (fun c f => { c with FileLinks := f })).andThen
          ((Action.onlyIf (fun c => c.plain)
              ((openWrite db false FileCoarsePlainLinks
                  (fun c f => { c with plainLinks := f })).andThen
                (openWrite db false FileCoarsePlainSeeds
                  (fun c f => { c with plainSeeds := f })))).andThen
            (Action.onlyIf (fun _ => appnd) (CoarseDB.load m))))))
    coarsedb

/-- The function `NewReadCoarseDB`. -/
def NewReadCoarseDB (m : Methods σ) (db : DB) :
    List Event × Option (CoarseDB σ) × Option Error :=
  let coarsedb : CoarseDB σ :=
    { Seqs := [], seqsRead := 0, Seeds := m.NewSeeds db.MapSeedSize,
      FileFasta := none, FileSeeds := none, FileLinks := none,
      seqLock := none,
      readOnly := false, plain := db.SavePlain,
      plainLinks := none, plainSeeds := none }
  construct
    ((openRead db FileCoarseFasta (fun c f => { c with FileFasta := f })).andThen
      ((openRead db FileCoarseLinks (fun c f => { c with FileLinks := f })).andThen
        (CoarseDB.load m)))
    coarsedb

end OpenLoadSave

/-! ## The search driver: `cmd/cablastp-xsearch/main.go` -/

/-- A Go `float64`: not-a-number, an infinity, or a finite value, held as the
rational it denotes (the two zeros are the rational 0; Go compares them equal
as well). -/
inductive Float64 where
  | nan
  | negInf
  | fin (q : ℚ)
  | posInf
deriving DecidableEq

/-- The Go comparison `x < y` on `float64` (false when either side is NaN). -/
def Float64.lt : Float64 → Float64 → Bool
  | .nan, _ => false
  | _, .nan => false
  | .negInf, .negInf => false
  | .negInf, _ => true
  | .fin _, .negInf => false
  | .fin a, .fin b => decide (a < b)
  | .fin _, .posInf => true
  | .posInf, _ => false

/-- Modelled from the spec: the struct `cablastp.OriginalSeq` is declared
outside the sources at hand. The spec gives an original sequence as
`{name, residues, offset, id}`, the four fields `main.go` reads and writes. -/
structure OriginalSeq where
  Name : String
  Residues : List Nat
  Offset : Int
  Id : Int
deriving DecidableEq, Repr

/-- Modelled from the spec: the type of an HSP of a parsed BLAST hit is
declared outside the sources at hand. The spec gives a hit as
`{target_id, score, hit_coordinate_range}`; these are the score and the
coordinate range under the field names `expandBlastHits` reads. -/
structure Hsp where
  HitFrom : Int
  HitTo : Int
  BitScore : Float64

/-- Modelled from the spec: the type of a hit of a parsed BLAST result is
declared outside the sources at hand. It holds the target id (`Accession`, the
coarse sequence id passed to `Expand`) and the HSPs of the hit. -/
structure Hit where
  Accession : Int
  Hsps : List Hsp

/-- Modelled from the spec: the struct `blast` that the XML output is decoded
into is declared outside the sources at hand; it is the structured hit list of
the aligner, the list `expandBlastHits` walks. -/
structure blast where
  Hits : List Hit

section ExpandBlastHits

variable {ω : Type}

/-- The loop state of `expandBlastHits`: the database that `Expand` reads
(and may change), the map `used` (a missing key reads `false`) and the slice
`oseqs`. -/
structure ExpandState (ω : Type) where
  db : ω
  used : Int → Bool
  oseqs : List OriginalSeq

/-- The innermost loop of `expandBlastHits`, over the sequences one `Expand`
call returned: a sequence whose `Id` is already in `used` is skipped, any
other is marked used and appended. -/
def collectOseqs (st : ExpandState ω) (someOseqs : List OriginalSeq) : ExpandState ω :=
  someOseqs.foldl
    (fun st oseq =>
      if st.used oseq.Id then st
      else { st with
              used := fun k => if k = oseq.Id then true else st.used k
              oseqs := st.oseqs ++ [oseq] })
    st

/-- The body of the loop over the HSPs of a hit. `Expand` is called first; an
error skips the HSP (the message to stderr is not represented), then an HSP
whose bit score is below `flagCoarseBitScore` is skipped, otherwise the
returned sequences are collected. -/
def expandHsp
    (Expand : ω → Int → Int → Int → (List OriginalSeq × Option Error) × ω)
    (flagCoarseBitScore : Float64) (hit : Hit) (st : ExpandState ω) (hsp : Hsp) :
    ExpandState ω :=
  let r := Expand st.db hit.Accession hsp.HitFrom hsp.HitTo
  let st1 := { st with db := r.2 }
  match r.1.2 with
  | some _ => st1
  | none =>
    if hsp.BitScore.lt flagCoarseBitScore then st1
    else collectOseqs st1 r.1.1

/-- The body of the loop over the hits: the loop over the HSPs of the hit. -/
def expandHit
    (Expand : ω → Int → Int → Int → (List OriginalSeq × Option Error) × ω)
    (flagCoarseBitScore : Float64) (st : ExpandState ω) (hit : Hit) : ExpandState ω :=
  hit.Hsps.foldl (expandHsp Expand flagCoarseBitScore hit) st

/-- The function `expandBlastHits`. `decode` is the XML decoding of the search
buffer: the decoded value and the error. `Expand` is `db.CoarseDB.Expand`
with the database state it works on. Go returns `(nil, error)` when decoding
fails and `(oseqs, nil)` otherwise; the database after the call is returned
as well. -/
def expandBlastHits
    (decode : List Nat → blast × Option Error)
    (Expand : ω → Int → Int → Int → (List OriginalSeq × Option Error) × ω)
    (flagCoarseBitScore : Float64) (db : ω) (blastOut : List Nat) :
    (Option (List OriginalSeq) × Option Error) × ω :=
  let d := decode blastOut
  match d.2 with
  | some err => ((none, some ("Could not parse BLAST search results: " ++ err)), db)
  | none =>
    let st0 : ExpandState ω := { db := db, used := fun _ => false, oseqs := [] }
    let st := d.1.Hits.foldl (expandHit Expand flagCoarseBitScore) st0
    ((some st.oseqs, none), st.db)

end ExpandBlastHits

/-! ### The argument scan of `init` -/

/-- A Go slice of strings: the backing array from the slice's first element to
the end of its capacity, and the length. -/
structure Slice where
  backing : List String
  len : Nat
deriving DecidableEq, Repr

/-- The elements of a slice: the first `len` of the backing array. -/
def Slice.elems (s : Slice) : List String := s.backing.take s.len

/-- The capacity `cap(s)`. -/
def Slice.cap (s : Slice) : Nat := s.backing.length

/-- The slice the runtime hands over for a list of arguments. -/
def Slice.ofList (xs : List String) : Slice := { backing := xs, len := xs.length }

/-- The nil slice. -/
def Slice.nil : Slice := { backing := [], len := 0 }

/-- The slice expression `s[low:]`: the upper index is `len(s)`, and Go panics
(`none`) unless `low ≤ len(s)`. -/
def Slice.sliceFrom (s : Slice) (low : Nat) : Option Slice :=
  if low ≤ s.len then some { backing := s.backing.drop low, len := s.len - low } else none

/-- The slice expression `s[:high]`: Go panics (`none`) unless
`high ≤ cap(s)`. -/
def Slice.sliceTo (s : Slice) (high : Nat) : Option Slice :=
  if high ≤ s.cap then some { backing := s.backing, len := high } else none

/-- The two package variables the scan of `init` assigns. -/
structure Args where
  osArgs : Slice
  blastArgs : Slice
deriving DecidableEq, Repr

/-- The body of the loop `for i, arg := range os.Args` in `init`: on the token
`--blast-args`, first `blastArgs = os.Args[i+1:]`, then `os.Args = os.Args[:i]`,
both on the current value of `os.Args`. There is no `break`. -/
def scanArg (st : Args) (i : Nat) (arg : String) : Option Args :=
  if arg = "--blast-args" then
    match st.osArgs.sliceFrom (i + 1) with
    | none => none
    | some b =>
      match st.osArgs.sliceTo i with
      | none => none
      | some a => some { osArgs := a, blastArgs := b }
  else some st

/-- The loop of `init` from index `i` over the remaining elements of the range
expression. -/
def scanFrom : Nat → List String → Args → Option Args
  | _, [], st => some st
  | i, arg :: rest, st =>
    match scanArg st i arg with
    | none => none
    | some st1 => scanFrom (i + 1) rest st1

/-- The scan in `init` started with `os.Args = osArgs` and `blastArgs` nil. The
range expression is evaluated once, so the loop walks the original arguments
whatever `os.Args` becomes. `none` is a run-time panic. -/
def init (osArgs : List String) : Option Args :=
  scanFrom 0 osArgs { osArgs := Slice.ofList osArgs, blastArgs := Slice.nil }

/-! ### The query loop of `main` -/

/-- A FASTA record: name and residues. -/
structure FastaSeq where
  Name : String
  Residues : List Nat
deriving DecidableEq, Repr

/-- A `fasta.Reader` over a finite input: the records not read yet, each a
sequence or a record that fails to parse. -/
abbrev Reader := List (Except Error FastaSeq)

/-- The result of `reader.Read()`. -/
inductive ReadResult where
  | seq (s : FastaSeq)
  | eof
  | err (e : Error)

/-- The call `reader.Read()`: the next record, or `io.EOF` once the input is
exhausted (and on every later call). -/
def Reader.Read : Reader → ReadResult × Reader
  | [] => (.eof, [])
  | .ok s :: rest => (.seq s, rest)
  | .error e :: rest => (.err e, rest)

/-- A call either returns or ends the process (`fatalf` calls `os.Exit(1)`). -/
inductive Run (α : Type) where
  | ret (a : α)
  | exit (code : Int)

/-- The state of the query loop of `main`: the reader, the content of
`queryBuf`, and the batches `processQueries` was called on so far. -/
structure QueryState where
  reader : Reader
  queryBuf : List FastaSeq
  processed : List (List FastaSeq)

/-- The flags of `main.go` that the query loop reads. -/
structure Flags where
  flagCompressQuery : Bool
  flagIterativeQuery : Bool
  flagQueryChunkSize : Int

/-- The functions of the package `cablastp` and the external commands that
`main` reaches, all outside the sources at hand: `Translate`, `Reduce`, the
exit code of a fatal error in `processQueries` on a batch (`none`: it
returns), and the same for `processCompressedQueries`. -/
structure Collaborators where
  Translate : List Nat → List (List Nat)
  Reduce : List Nat → List Nat
  processQueriesFatal : List FastaSeq → Option Int
  processCompressedQueriesFatal : Option Int

/-- The function `translateQueries`: at `io.EOF` it returns nil and nothing
else happens; a read error is fatal; otherwise the reduced translations of the
sequence are written and flushed to `queryBuf`. The caller cannot tell the
three cases apart: `main` drops the returned error, which is nil each time. -/
def translateQueries (x : Collaborators) (st : QueryState) : Run QueryState :=
  match Reader.Read st.reader with
  | (.eof, r) => .ret { st with reader := r }
  | (.err _, _) => .exit 1
  | (.seq sequence, r) =>
    .ret { st with
            reader := r
            queryBuf := st.queryBuf ++
              (x.Translate sequence.Residues).map
                (fun s => { Name := sequence.Name, Residues := x.Reduce s }) }

/-- The inner loop `for j := 0; j < flagQueryChunkSize; j++` of the iterative
mode, with `n` iterations left. -/
def translateChunk (x : Collaborators) : Nat → QueryState → Run QueryState
  | 0, st => .ret st
  | n + 1, st =>
    match translateQueries x st with
    | .exit c => .exit c
    | .ret st1 => translateChunk x n st1

/-- A call of `processQueries` on the content of `queryBuf`. -/
def processQueries (x : Collaborators) (st : QueryState) : Run QueryState :=
  match x.processQueriesFatal st.queryBuf with
  | some c => .exit c
  | none => .ret { st with processed := st.processed ++ [st.queryBuf] }

/-- The body of the loop `for i := 0; true; i++` of `main`. -/
def queryLoopBody (fl : Flags) (x : Collaborators) (st : QueryState) : Run QueryState :=
  if fl.flagIterativeQuery then
    match translateChunk x fl.flagQueryChunkSize.toNat st with
    | .exit c => .exit c
    | .ret st1 =>
      match processQueries x st1 with
      | .exit c => .exit c
      | .ret st2 => .ret { st2 with queryBuf := [] }
  else translateQueries x st

/-- Where a `for` loop is after at most `fuel` iterations: control has passed
to the statement after the loop, the process has exited, or the loop is still
running. -/
inductive LoopOutcome where
  | left (st : QueryState)
  | exit (code : Int)
  | running (st : QueryState)

/-- A Go loop `for ; cond; { body }` whose body has no `break` and no
`return`, run for at most `fuel` iterations. -/
def forLoop (cond : QueryState → Bool) (body : QueryState → Run QueryState) :
    Nat → QueryState → LoopOutcome
  | 0, st => .running st
  | fuel + 1, st =>
    if cond st then
      match body st with
      | .exit c => .exit c
      | .ret st1 => forLoop cond body fuel st1
    else .left st

/-- Where `main` is after at most `fuel` iterations of its query loop:
`cleanup(db)` was reached after the listed `processQueries` calls, the process
has exited, or the query loop is still running. -/
inductive MainOutcome where
  | cleanedUp (processed : List (List FastaSeq))
  | exited (code : Int)
  | running (st : QueryState)

/-- The function `main` from the branch on `flagCompressQuery` on, for the
query input `inputFastaQuery`. The query loop is `for i := 0; true; i++`: its
condition is the constant `true`. -/
def main (fl : Flags) (x : Collaborators) (fuel : Nat) (inputFastaQuery : Reader) :
    MainOutcome :=
  if fl.flagCompressQuery then
    match x.processCompressedQueriesFatal with
    | some c => .exited c
    | none => .cleanedUp []
  else
    match forLoop (fun _ => true) (queryLoopBody fl x) fuel
        { reader := inputFastaQuery, queryBuf := [], processed := [] } with
    | .exit c => .exited c
    | .running st => .running st
    | .left st =>
      if !fl.flagIterativeQuery then
        match processQueries x st with
        | .exit c => .exited c
        | .ret st1 => .cleanedUp st1.processed
      else .cleanedUp st.processed

/-! ### `writeFasta` -/

/-- The bytes of a Go string: the UTF-8 encoding of its characters. -/
def bytesOf (s : String) : List Nat :=
  (s.data.flatMap String.utf8EncodeChar).map UInt8.toNat

/-- The call `fmt.Fprintf(buf, "> %s\n%s\n", name, string(residues))` on a
`*bytes.Buffer` holding `buf`: the formatted bytes are appended. A write to a
`bytes.Buffer` always returns a nil error. -/
def fprintfFasta (buf : List Nat) (name : String) (residues : List Nat) :
    List Nat × Option Error :=
  (buf ++ (bytesOf "> " ++ bytesOf name ++ bytesOf "\n" ++ residues ++ bytesOf "\n"), none)

/-- The function `writeFasta`: the content of `buf` after the call and the
returned error. -/
def writeFasta : List OriginalSeq → List Nat → List Nat × Option Error
  | [], buf => (buf, none)
  | oseq :: rest, buf =>
    match fprintfFasta buf oseq.Name oseq.Residues with
    | (buf1, some err) => (buf1, some ("Could not write to buffer: " ++ err))
    | (buf1, none) => writeFasta rest buf1

/-! ## Vocabulary of the statements -/

/-- The invariant of the loops of `expandBlastHits`: the collected ids are
pairwise distinct and every collected id is marked in `used`. -/
def ExpandState.Distinct {ω : Type} (st : ExpandState ω) : Prop :=
  (st.oseqs.map OriginalSeq.Id).Nodup ∧ ∀ o ∈ st.oseqs, st.used o.Id = true

/-- The save calls of a complete `Save`, in order, for the two flags. -/
def saveOrder (readOnly plain : Bool) : List Step :=
  [Step.saveFasta, Step.saveLinks]
    ++ (if readOnly then [] else [Step.saveSeeds])
    ++ (if plain then
          Step.saveLinksPlain :: (if readOnly then [] else [Step.saveSeedsPlain])
        else [])

/-- The error that the save method of a step returns on `db`. -/
def saveOutcome {σ : Type} (m : Methods σ) (db : CoarseDB σ) : Step → Option Error
  | .saveFasta => m.saveFasta db
  | .saveLinks => m.saveLinks db
  | .saveSeeds => m.saveSeeds db
  | .saveLinksPlain => m.saveLinksPlain db
  | .saveSeedsPlain => m.saveSeedsPlain db
  | _ => none

/-- A planned list of calls run up to and including the first one that
fails: the calls made and the error returned. -/
def runUntilError : List Event → List Event × Option Error
  | [] => ([], none)
  | ev :: rest =>
    match ev.err with
    | some e => ([ev], some e)
    | none => (ev :: (runUntilError rest).1, (runUntilError rest).2)

/-- A run stops at its first error: with a nil result every call made
returned nil; with a result `e` the last call made returned `e` and every
call before it returned nil. -/
def StopsAtFirstError (trace : List Event) (err : Option Error) : Prop :=
  (err = none → ∀ ev ∈ trace, ev.err = none)
  ∧ (∀ e, err = some e →
      ∃ pre s, trace = pre ++ [{ step := s, err := some e }] ∧ ∀ ev ∈ pre, ev.err = none)

/-- Every call an action makes, from any receiver, satisfies `P`. -/
def Action.Emits {σ : Type} (P : Event → Prop) (a : Action σ) : Prop :=
  ∀ c, ∀ ev ∈ (a c).1, P ev

/-- An action keeps the property `I` of the receiver. -/
def Action.Keeps {σ : Type} (I : CoarseDB σ → Prop) (a : Action σ) : Prop :=
  ∀ c, I c → I (a c).2.1

/-- An action stops at its first error, from any receiver. -/
def Action.Stops {σ : Type} (a : Action σ) : Prop :=
  ∀ c, StopsAtFirstError (a c).1 (a c).2.2

/-- The three file fields that a read-mode database leaves unset. -/
def WriteHandlesUnset {σ : Type} (c : CoarseDB σ) : Prop :=
  c.FileSeeds = none ∧ c.plainLinks = none ∧ c.plainSeeds = none

/-- A call that `NewReadCoarseDB` may make: opening the coarse sequence file
or the link file for reading, or one of the three read methods of `load`. -/
def ReadModeStep (s : Step) : Prop :=
  s = Step.openReadFile FileCoarseFasta ∨ s = Step.openReadFile FileCoarseLinks
  ∨ s = Step.readFasta ∨ s = Step.readSeeds ∨ s = Step.readLinks

/-- All-or-nothing result of a constructor: a call that failed is the last
call made and its error is returned with a nil database; when no call failed a
database is returned with a nil error; a database is never returned together
with an error, and a nil database never with a nil error. -/
def AllOrNothing {σ : Type} (r : List Event × Option (CoarseDB σ) × Option Error) : Prop :=
  (∀ ev ∈ r.1, ∀ e, ev.err = some e → r.2 = (none, some e) ∧ r.1.getLast? = some ev)
  ∧ ((∀ ev ∈ r.1, ev.err = none) → ∃ d, r.2 = (some d, none))
  ∧ (∀ d, r.2.1 = some d → r.2.2 = none)
  ∧ (r.2.1 = none → ∃ e, r.2.2 = some e)

/-- What every call of `NewWriteCoarseDB` and `NewReadCoarseDB` is: an open
call carrying the error its `DB` method returned, or a read method. -/
def FaithfulEvent (db : DB) (ev : Event) : Prop :=
  (∀ a n, ev.step = Step.openWriteFile a n → ev.err = (db.openWriteFile a n).2)
  ∧ (∀ n, ev.step = Step.openReadFile n → ev.err = (db.openReadFile n).2)

/-- The open calls that `NewWriteCoarseDB` may make: the coarse sequence file
with the caller's `appnd`, every other file with the append flag false. -/
def WriteModeOpen (appnd : Bool) (a : Bool) (name : String) : Prop :=
  (name = FileCoarseFasta ∧ a = appnd)
  ∨ (a = false ∧ (name = FileCoarseSeeds ∨ name = FileCoarseLinks
        ∨ name = FileCoarsePlainLinks ∨ name = FileCoarsePlainSeeds))

/-- A call is one of the three read methods of `load()`. -/
def Step.isRead : Step → Bool
  | .readFasta => true
  | .readSeeds => true
  | .readLinks => true
  | _ => false

/-- The FASTA record of an original sequence as the claim words it: the bytes
`"> " + Name + "\n" + Residues + "\n"`. -/
def fastaRecord (oseq : OriginalSeq) : List Nat :=
  [62, 32] ++ bytesOf oseq.Name ++ [10] ++ oseq.Residues ++ [10]

/-- One recorded `Seeds.Add(id, seq)` call: its arguments, and what the store
was when the call was made: the length of `Seqs` and the entry of `Seqs` at
the index `id` (`none` when `id` is not an index of `Seqs`). -/
structure SeedsCall where
  id : Int
  seq : CoarseSeq
  lenSeqs : Nat
  entry : Option CoarseSeq
deriving DecidableEq, Repr

/-- A seed table that records the `Seeds.Add` calls made on it, oldest
first. -/
abbrev SeedsLog := List SeedsCall

/-- `Seeds.Add(id, seq)` on the recording seed table, made when the database
is `coarsedb`. -/
def SeedsLog.Add (coarsedb : CoarseDB SeedsLog) (id : Int) (seq : CoarseSeq) : SeedsLog :=
  coarsedb.Seeds ++
    [{ id := id, seq := seq, lenSeqs := coarsedb.Seqs.length,
       entry := if 0 ≤ id then coarsedb.Seqs[id.toNat]? else none }]

/-- The calls recorded are, in order, one per entry of the store: the call
number `k` was made with the id `k` and the store's entry at index `k`, when
the store had `k + 1` entries of which the last was that entry. -/
def SeedsMirrorStore (db : CoarseDB SeedsLog) : Prop :=
  db.Seeds.length = db.Seqs.length
  ∧ ∀ k : Nat, db.Seeds[k]?
      = (db.Seqs[k]?).map
          (fun c => { id := (k : Int), seq := c, lenSeqs := k + 1, entry := some c })

/-- The events of a complete `load()` on `c`: the three read methods in order,
each with the error it returns on the receiver as the method before left
it. -/
def loadPlan {σ : Type} (m : Methods σ) (c : CoarseDB σ) : List Event :=
  [{ step := .readFasta, err := (m.readFasta c).2 },
   { step := .readSeeds, err := (m.readSeeds (readCall .readFasta m.readFasta c).2.1).2 },
   { step := .readLinks,
     err := (m.readLinks (readCall .readSeeds m.readSeeds
              (readCall .readFasta m.readFasta c).2.1).2.1).2 }]

/-- The open calls of `NewWriteCoarseDB` when every file opens: the coarse
sequence file with the caller's `appnd`, then the seed file and the link file
with the append flag false, then, with `SavePlain`, the two mirrors. -/
def writeOpens (appnd : Bool) (db : DB) : List Event :=
  [{ step := .openWriteFile appnd FileCoarseFasta, err := none },
   { step := .openWriteFile false FileCoarseSeeds, err := none },
   { step := .openWriteFile false FileCoarseLinks, err := none }]
  ++ (if db.SavePlain then
        [{ step := .openWriteFile false FileCoarsePlainLinks, err := none },
         { step := .openWriteFile false FileCoarsePlainSeeds, err := none }]
      else [])

/-- The struct that `NewWriteCoarseDB` has built once its files are open. -/
def openedForWrite {σ : Type} (m : Methods σ) (appnd : Bool) (db : DB) : CoarseDB σ :=
  { Seqs := [], seqsRead := 0, Seeds := m.NewSeeds db.MapSeedSize,
    FileFasta := (db.openWriteFile appnd FileCoarseFasta).1,
    FileSeeds := (db.openWriteFile false FileCoarseSeeds).1,
    FileLinks := (db.openWriteFile false FileCoarseLinks).1,
    seqLock := some {},
    readOnly := db.ReadOnly, plain := db.SavePlain,
    plainLinks := if db.SavePlain then (db.openWriteFile false FileCoarsePlainLinks).1 else none,
    plainSeeds := if db.SavePlain then (db.openWriteFile false FileCoarsePlainSeeds).1 else none }

/-- One call `Expand(hit.Accession, hsp.HitFrom, hsp.HitTo)` made by
`expandBlastHits`: the hit and HSP it was made for, and what it returned. -/
structure ExpandCall where
  hit : Hit
  hsp : Hsp
  someOseqs : List OriginalSeq
  err : Option Error

/-- The HSPs of a parsed result in the order they are walked: the hits in
order, the HSPs of each hit in order. -/
def walkedHsps (results : blast) : List (Hit × Hsp) :=
  results.Hits.flatMap (fun hit => hit.Hsps.map (fun hsp => (hit, hsp)))

/-- The `Expand` calls made for a list of walked HSPs, in order, each on the
database that the call before it left. -/
def expandCalls {ω : Type}
    (Expand : ω → Int → Int → Int → (List OriginalSeq × Option Error) × ω) :
    ω → List (Hit × Hsp) → List ExpandCall
  | _, [] => []
  | db, p :: rest =>
    { hit := p.1, hsp := p.2,
      someOseqs := (Expand db p.1.Accession p.2.HitFrom p.2.HitTo).1.1,
      err := (Expand db p.1.Accession p.2.HitFrom p.2.HitTo).1.2 }
      :: expandCalls Expand (Expand db p.1.Accession p.2.HitFrom p.2.HitTo).2 rest

/-- A call passes when it returned no error and the bit score of its HSP is
not below the threshold. -/
def ExpandCall.passes (flagCoarseBitScore : Float64) (c : ExpandCall) : Bool :=
  c.err.isNone && !(c.hsp.BitScore.lt flagCoarseBitScore)

/-- The sequences returned by the passing calls, in the order they are met:
calls in order, the result of each call in order. -/
def passingOseqs (flagCoarseBitScore : Float64) (calls : List ExpandCall) :
    List OriginalSeq :=
  calls.flatMap (fun c => if c.passes flagCoarseBitScore then c.someOseqs else [])

/-- The sequences of a list whose `Id` does not occur before them, in the
list or among `earlier`. -/
def keepFirst : List OriginalSeq → List OriginalSeq → List OriginalSeq
  | _, [] => []
  | earlier, o :: rest =>
    if o.Id ∈ earlier.map OriginalSeq.Id then keepFirst (earlier ++ [o]) rest
    else o :: keepFirst (earlier ++ [o]) rest

/-- The sequences of a list in the order their `Id` is first met: each
sequence that no sequence before it shares its `Id` with. -/
def firstById (l : List OriginalSeq) : List OriginalSeq := keepFirst [] l

/-- The loop state of `expandBlastHits` after the sequences `seen` were met:
`oseqs` holds them in the order their `Id` was first met, and `used` marks
exactly their ids. -/
def ExpandState.Tracks {ω : Type} (st : ExpandState ω) (seen : List OriginalSeq) : Prop :=
  st.oseqs = firstById seen ∧ ∀ k : Int, st.used k = true ↔ k ∈ seen.map OriginalSeq.Id

/-! ## Concrete inputs -/

/-- A database with one coarse sequence and an allocated lock. -/
def oneSeqDB : CoarseDB Unit :=
  { Seqs := [NewCoarseSeq 0 "" [65, 67]], seqsRead := 0, Seeds := (),
    FileFasta := none, FileSeeds := none, FileLinks := none, seqLock := some {},
    readOnly := false, plain := false, plainLinks := none, plainSeeds := none }

/-- An `Expand` that returns the same two original sequences (ids 7 and 9)
for every window, and fails on the coarse id 3. -/
def expandTwo (_db : Unit) (accession _hitFrom _hitTo : Int) :
    (List OriginalSeq × Option Error) × Unit :=
  if accession = 3 then (([], some "no such coarse sequence"), ())
  else (([{ Name := "a", Residues := [65], Offset := 0, Id := 7 },
          { Name := "b", Residues := [67], Offset := 0, Id := 9 }], none), ())

/-- A parsed result with two hits, the first with two HSPs. -/
def twoHits : blast :=
  { Hits := [{ Accession := 0, Hsps := [{ HitFrom := 1, HitTo := 5, BitScore := .fin 30 },
                                         { HitFrom := 2, HitTo := 6, BitScore := .fin 40 }] },
             { Accession := 1, Hsps := [{ HitFrom := 1, HitTo := 5, BitScore := .fin 50 }] }] }

/-- Methods that all succeed and leave the in-memory state as it is. -/
def okMethods : Methods Unit :=
  { NewSeeds := fun _ => (),
    readFasta := fun c => ({ Seqs := c.Seqs, seqsRead := c.seqsRead, Seeds := () }, none),
    readSeeds := fun c => ({ Seqs := c.Seqs, seqsRead := c.seqsRead, Seeds := () }, none),
    readLinks := fun c => ({ Seqs := c.Seqs, seqsRead := c.seqsRead, Seeds := () }, none),
    saveFasta := fun _ => none,
    saveLinks := fun _ => none,
    saveSeeds := fun _ => none,
    saveLinksPlain := fun _ => none,
    saveSeedsPlain := fun _ => none }

/-- A read-only database with the plain flag set. -/
def readOnlyPlainDB : CoarseDB Unit :=
  { Seqs := [NewCoarseSeq 0 "" [65, 67]], seqsRead := 0, Seeds := (),
    FileFasta := some ⟨3⟩, FileSeeds := some ⟨4⟩, FileLinks := some ⟨5⟩,
    seqLock := some {}, readOnly := true, plain := true, plainLinks := some ⟨6⟩, plainSeeds := some ⟨7⟩ }

/-- A `DB` whose files all open. -/
def okDB : DB :=
  { MapSeedSize := 3, ReadOnly := false, SavePlain := false,
    openWriteFile := fun _ _ => (some ⟨3⟩, none),
    openReadFile := fun _ => (some ⟨3⟩, none) }

/-- A `DB` whose link file cannot be opened. -/
def noLinksDB : DB :=
  { MapSeedSize := 3, ReadOnly := false, SavePlain := false,
    openWriteFile := fun _ name =>
      if name = FileCoarseLinks then (none, some "permission denied") else (some ⟨3⟩, none),
    openReadFile := fun name =>
      if name = FileCoarseLinks then (none, some "permission denied") else (some ⟨3⟩, none) }

/-- Collaborators that translate a sequence into itself and never fail. -/
def plainCollaborators : Collaborators :=
  { Translate := fun s => [s], Reduce := fun s => s,
    processQueriesFatal := fun _ => none, processCompressedQueriesFatal := none }

/-- The default flags: batch mode, no query compression, chunks of 100. -/
def defaultFlags : Flags :=
  { flagCompressQuery := false, flagIterativeQuery := false, flagQueryChunkSize := 100 }

/-- An empty store with a recording seed table. -/
def emptyLogDB : CoarseDB SeedsLog :=
  { Seqs := [], seqsRead := 0, Seeds := [],
    FileFasta := none, FileSeeds := none, FileLinks := none, seqLock := some {},
    readOnly := false, plain := false, plainLinks := none, plainSeeds := none }

/-- An `Expand` that fails on the coarse id 3 and returns, for any other coarse
id, one original sequence whose `Id` is that coarse id. -/
def expandByAccession (_db : Unit) (accession _hitFrom _hitTo : Int) :
    (List OriginalSeq × Option Error) × Unit :=
  if accession = 3 then (([], some "no such coarse sequence"), ())
  else (([{ Name := "s", Residues := [65], Offset := 0, Id := accession }], none), ())

/-- A parsed result with three hits of one HSP each; the `Expand` call of the
second hit (coarse id 3) fails under `expandByAccession`. -/
def hitsWithFailure : blast :=
  { Hits := [{ Accession := 0, Hsps := [{ HitFrom := 1, HitTo := 5, BitScore := .fin 30 }] },
             { Accession := 3, Hsps := [{ HitFrom := 1, HitTo := 5, BitScore := .fin 40 }] },
             { Accession := 1, Hsps := [{ HitFrom := 1, HitTo := 5, BitScore := .fin 50 }] }] }

/-! # Theorems -/

/-! ## Theorems on `expandBlastHits` -/

section ExpandBlastHitsTheorems

variable {ω : Type}

theorem collectOseqs_Distinct (someOseqs : List OriginalSeq) :
    ∀ st : ExpandState ω, st.Distinct → (collectOseqs st someOseqs).Distinct := by
  induction someOseqs with
  | nil => intro st h; exact h
  | cons oseq rest ih =>
    intro st h
    unfold collectOseqs
    rw [List.foldl_cons]
    apply ih
    by_cases hu : st.used oseq.Id = true
    · simpa [hu] using h
    · obtain ⟨hnd, hused⟩ := h
      simp only [hu, Bool.false_eq_true, if_false]
      constructor
      · simp only [List.map_append, List.map_cons, List.map_nil]
        refine List.Nodup.append hnd (List.nodup_singleton _) ?_
        intro a ha hb
        simp only [List.mem_singleton] at hb
        obtain ⟨o, ho, rfl⟩ := List.mem_map.mp ha
        exact hu (hb ▸ hused o ho)
      · intro o ho
        simp only [List.mem_append, List.mem_singleton] at ho
        rcases ho with ho | rfl
        · simp [hused o ho]
        · simp

theorem expandHsp_Distinct
    (Expand : ω → Int → Int → Int → (List OriginalSeq × Option Error) × ω)
    (flag : Float64) (hit : Hit) (st : ExpandState ω) (hsp : Hsp) (h : st.Distinct) :
    (expandHsp Expand flag hit st hsp).Distinct := by
  have h1 : ({ st with db := (Expand st.db hit.Accession hsp.HitFrom hsp.HitTo).2 }
      : ExpandState ω).Distinct := h
  simp only [expandHsp]
  split
  · exact h1
  · split
    · exact h1
    · exact collectOseqs_Distinct _ _ h1

theorem expandHit_Distinct
    (Expand : ω → Int → Int → Int → (List OriginalSeq × Option Error) × ω)
    (flag : Float64) (hit : Hit) :
    ∀ st : ExpandState ω, st.Distinct → (expandHit Expand flag st hit).Distinct := by
  unfold expandHit
  induction hit.Hsps with
  | nil => intro st h; exact h
  | cons hsp rest ih =>
    intro st h
    rw [List.foldl_cons]
    exact ih _ (expandHsp_Distinct Expand flag hit st hsp h)

theorem expandHits_Distinct
    (Expand : ω → Int → Int → Int → (List OriginalSeq × Option Error) × ω)
    (flag : Float64) (hits : List Hit) :
    ∀ st : ExpandState ω, st.Distinct →
      (hits.foldl (expandHit Expand flag) st).Distinct := by
  induction hits with
  | nil => intro st h; exact h
  | cons hit rest ih =>
    intro st h
    rw [List.foldl_cons]
    exact ih _ (expandHit_Distinct Expand flag hit st h)

/-- C4: for every parsed BLAST result (decoding succeeded with any list of
hits, each with any list of HSPs) and every behaviour of `Expand`,
`expandBlastHits` returns a slice with a nil error, and no two original
sequences of the slice have the same `Id`. -/
theorem expandBlastHits_no_duplicate_ids
    (decode : List Nat → blast × Option Error)
    (Expand : ω → Int → Int → Int → (List OriginalSeq × Option Error) × ω)
    (flagCoarseBitScore : Float64) (db : ω) (blastOut : List Nat)
    (hparsed : (decode blastOut).2 = none) :
    ∃ oseqs : List OriginalSeq,
      (expandBlastHits decode Expand flagCoarseBitScore db blastOut).1 = (some oseqs, none)
      ∧ (oseqs.map OriginalSeq.Id).Nodup
      ∧ ∀ i j : Fin oseqs.length, (oseqs.get i).Id = (oseqs.get j).Id → i = j := by
  have hinit : ({ db := db, used := fun _ => false, oseqs := [] } : ExpandState ω).Distinct :=
    ⟨List.nodup_nil, fun _ ho => absurd ho (List.not_mem_nil _)⟩
  have hd := (expandHits_Distinct Expand flagCoarseBitScore (decode blastOut).1.Hits _ hinit).1
  refine ⟨_, ?_, hd, ?_⟩
  · simp only [expandBlastHits, hparsed]
  · intro i j hij
    have hinj := List.nodup_iff_injective_get.mp hd
    apply Fin.ext
    have := @hinj ⟨i.1, by simp⟩ ⟨j.1, by simp⟩ (by simpa using hij)
    simpa using congrArg Fin.val this

/-- `expandBlastHits_no_duplicate_ids` on a result with three HSPs, each of
which expands to the same two original sequences. -/
theorem expandBlastHits_no_duplicate_ids_witness :
    ((fun _ => (twoHits, none)) ([] : List Nat) : blast × Option Error).2 = none
    ∧ ∃ oseqs : List OriginalSeq,
      (expandBlastHits (fun _ => (twoHits, none)) expandTwo (.fin 0) () []).1
        = (some oseqs, none)
      ∧ (oseqs.map OriginalSeq.Id).Nodup
      ∧ ∀ i j : Fin oseqs.length, (oseqs.get i).Id = (oseqs.get j).Id → i = j :=
  ⟨rfl, expandBlastHits_no_duplicate_ids (fun _ => (twoHits, none)) expandTwo (.fin 0) () [] rfl⟩

end ExpandBlastHitsTheorems

/-! ## Theorems on opening, loading and saving -/

section OpenLoadSaveTheorems

variable {σ : Type}

theorem runUntilError_take (plan : List Event) :
    ∃ k, (runUntilError plan).1 = plan.take k := by
  induction plan with
  | nil => exact ⟨0, rfl⟩
  | cons ev rest ih =>
    obtain ⟨k, hk⟩ := ih
    cases h : ev.err with
    | some e => exact ⟨1, by simp [runUntilError, h]⟩
    | none => exact ⟨k + 1, by simp [runUntilError, h, hk]⟩

theorem runUntilError_all_ok (plan : List Event) (h : ∀ ev ∈ plan, ev.err = none) :
    runUntilError plan = (plan, none) := by
  induction plan with
  | nil => rfl
  | cons ev rest ih =>
    have h1 : ev.err = none := h ev (List.mem_cons_self _ _)
    have h2 := ih (fun e he => h e (List.mem_cons_of_mem _ he))
    simp [runUntilError, h1, h2]

theorem saveSteps_eq_runUntilError (m : Methods σ) (db : CoarseDB σ) :
    saveSteps m db
      = ((runUntilError ((saveOrder db.readOnly db.plain).map
            (fun s => { step := s, err := saveOutcome m db s }))).1,
         db,
         (runUntilError ((saveOrder db.readOnly db.plain).map
            (fun s => { step := s, err := saveOutcome m db s }))).2) := by
  cases hro : db.readOnly <;> cases hpl : db.plain <;>
    cases h1 : m.saveFasta db <;> cases h2 : m.saveLinks db <;>
    cases h3 : m.saveSeeds db <;> cases h4 : m.saveLinksPlain db <;>
    cases h5 : m.saveSeedsPlain db <;>
    simp [saveSteps, Action.andThen, Action.onlyIf, saveCall, Action.skip, saveOrder,
      saveOutcome, runUntilError, *]

theorem saveSteps_take (m : Methods σ) (db : CoarseDB σ) :
    ∃ k, (saveSteps m db).1.map Event.step = (saveOrder db.readOnly db.plain).take k := by
  obtain ⟨k, hk⟩ := runUntilError_take ((saveOrder db.readOnly db.plain).map
    (fun s => ({ step := s, err := saveOutcome m db s } : Event)))
  refine ⟨k, ?_⟩
  rw [saveSteps_eq_runUntilError]
  simp only [hk, ← List.map_take, List.map_map]
  exact List.map_id' _

theorem saveSteps_mem (m : Methods σ) (db : CoarseDB σ) (s : Step)
    (h : s ∈ (saveSteps m db).1.map Event.step) : s ∈ saveOrder db.readOnly db.plain := by
  obtain ⟨k, hk⟩ := saveSteps_take m db
  rw [hk] at h
  exact List.mem_of_mem_take h

theorem saveSteps_all_ok (m : Methods σ) (db : CoarseDB σ)
    (hok : ∀ s ∈ saveOrder db.readOnly db.plain, saveOutcome m db s = none) :
    (saveSteps m db).1.map Event.step = saveOrder db.readOnly db.plain
    ∧ (saveSteps m db).2.2 = none := by
  have hall : ∀ ev ∈ (saveOrder db.readOnly db.plain).map
      (fun s => ({ step := s, err := saveOutcome m db s } : Event)), ev.err = none := by
    intro ev hev
    obtain ⟨s, hs, rfl⟩ := List.mem_map.mp hev
    exact hok s hs
  constructor
  · rw [saveSteps_eq_runUntilError, runUntilError_all_ok _ hall, List.map_map]
    exact List.map_id' _
  · rw [saveSteps_eq_runUntilError, runUntilError_all_ok _ hall]

end OpenLoadSaveTheorems

/-! ## Theorems on the constructors and `load` -/

section ConstructorTheorems

variable {σ : Type}

theorem emits_skip (P : Event → Prop) : (Action.skip : Action σ).Emits P := by
  intro c ev h
  simp [Action.skip] at h

theorem emits_andThen {P : Event → Prop} {a b : Action σ} (ha : a.Emits P) (hb : b.Emits P) :
    (a.andThen b).Emits P := by
  intro c ev h
  simp only [Action.andThen] at h
  split at h
  · exact ha c ev h
  · rcases List.mem_append.mp h with h | h
    · exact ha c ev h
    · exact hb _ ev h

theorem emits_onlyIf {P : Event → Prop} {a : Action σ} (cond : CoarseDB σ → Bool)
    (ha : a.Emits P) : (Action.onlyIf cond a).Emits P := by
  intro c ev h
  simp only [Action.onlyIf] at h
  split at h
  · exact ha c ev h
  · simp [Action.skip] at h

theorem emits_readCall {P : Event → Prop} (s : Step) (f : CoarseDB σ → Loaded σ × Option Error)
    (h : ∀ e, P { step := s, err := e }) : (readCall s f).Emits P := by
  intro c ev hev
  have hev : ev = _ := List.mem_singleton.mp hev
  rw [hev]
  exact h _

theorem emits_openWrite {P : Event → Prop} (db : DB) (appnd : Bool) (name : String)
    (set : CoarseDB σ → Option OsFile → CoarseDB σ)
    (h : P { step := .openWriteFile appnd name, err := (db.openWriteFile appnd name).2 }) :
    (openWrite db appnd name set).Emits P := by
  intro c ev hev
  have hev : ev = _ := List.mem_singleton.mp hev
  rw [hev]
  exact h

theorem emits_openRead {P : Event → Prop} (db : DB) (name : String)
    (set : CoarseDB σ → Option OsFile → CoarseDB σ)
    (h : P { step := .openReadFile name, err := (db.openReadFile name).2 }) :
    (openRead db name set).Emits P := by
  intro c ev hev
  have hev : ev = _ := List.mem_singleton.mp hev
  rw [hev]
  exact h

theorem keeps_skip (I : CoarseDB σ → Prop) : (Action.skip : Action σ).Keeps I :=
  fun _ h => h

theorem keeps_andThen {I : CoarseDB σ → Prop} {a b : Action σ} (ha : a.Keeps I)
    (hb : b.Keeps I) : (a.andThen b).Keeps I := by
  intro c h
  simp only [Action.andThen]
  split
  · exact ha c h
  · exact hb _ (ha c h)

theorem keeps_onlyIf {I : CoarseDB σ → Prop} {a : Action σ} (cond : CoarseDB σ → Bool)
    (ha : a.Keeps I) : (Action.onlyIf cond a).Keeps I := by
  intro c h
  simp only [Action.onlyIf]
  split
  · exact ha c h
  · exact h

theorem stopsAtFirstError_single (s : Step) (err : Option Error) :
    StopsAtFirstError [{ step := s, err := err }] err := by
  constructor
  · intro h ev hev
    simp only [List.mem_singleton] at hev
    rw [hev]
    exact h
  · intro e he
    exact ⟨[], s, by simp [he], fun _ h => absurd h (List.not_mem_nil _)⟩

theorem stops_skip : (Action.skip : Action σ).Stops := by
  intro c
  exact ⟨fun _ ev h => absurd h (List.not_mem_nil _), fun e h => by simp [Action.skip] at h⟩

theorem stops_andThen {a b : Action σ} (ha : a.Stops) (hb : b.Stops) :
    (a.andThen b).Stops := by
  intro c
  simp only [Action.andThen]
  cases hr : (a c).2.2 with
  | some e =>
    have := ha c
    rw [hr] at this
    exact this
  | none =>
    have h1 := (ha c).1 hr
    have h2 := hb (a c).2.1
    constructor
    · intro hn ev hev
      rcases List.mem_append.mp hev with h | h
      · exact h1 ev h
      · exact h2.1 hn ev h
    · intro e he
      obtain ⟨pre, s, hpre, hall⟩ := h2.2 e he
      refine ⟨(a c).1 ++ pre, s, ?_, ?_⟩
      · simp only [hpre, List.append_assoc]
      · intro ev hev
        rcases List.mem_append.mp hev with h | h
        · exact h1 ev h
        · exact hall ev h

theorem stops_onlyIf {a : Action σ} (cond : CoarseDB σ → Bool) (ha : a.Stops) :
    (Action.onlyIf cond a).Stops := by
  intro c
  simp only [Action.onlyIf]
  split
  · exact ha c
  · exact stops_skip c

theorem stops_readCall (s : Step) (f : CoarseDB σ → Loaded σ × Option Error) :
    (readCall s f).Stops := fun c => stopsAtFirstError_single s (f c).2

theorem stops_openWrite (db : DB) (appnd : Bool) (name : String)
    (set : CoarseDB σ → Option OsFile → CoarseDB σ) : (openWrite db appnd name set).Stops :=
  fun _ => stopsAtFirstError_single _ _

theorem stops_openRead (db : DB) (name : String)
    (set : CoarseDB σ → Option OsFile → CoarseDB σ) : (openRead db name set).Stops :=
  fun _ => stopsAtFirstError_single _ _

theorem stops_load (m : Methods σ) : (CoarseDB.load m).Stops :=
  stops_andThen (stops_readCall _ _) (stops_andThen (stops_readCall _ _) (stops_readCall _ _))

theorem construct_allOrNothing (a : Action σ) (c : CoarseDB σ) (ha : a.Stops) :
    AllOrNothing (construct a c) := by
  have hs := ha c
  cases hr : (a c).2.2 with
  | none =>
    have hc : construct a c = ((a c).1, some (a c).2.1, none) := by simp [construct, hr]
    rw [hc]
    refine ⟨?_, fun _ => ⟨_, rfl⟩, fun _ _ => rfl, fun h => by simp at h⟩
    intro ev hev e he
    have := hs.1 hr ev hev
    rw [he] at this
    exact absurd this (by simp)
  | some e0 =>
    have hc : construct a c = ((a c).1, none, some e0) := by simp [construct, hr]
    rw [hc]
    obtain ⟨pre, s, hpre, hall⟩ := hs.2 e0 hr
    refine ⟨?_, ?_, fun d h => by simp at h, fun _ => ⟨e0, rfl⟩⟩
    · intro ev hev e he
      simp only at hev
      rw [hpre] at hev
      rcases List.mem_append.mp hev with h | h
      · have := hall ev h
        rw [he] at this
        exact absurd this (by simp)
      · simp only [List.mem_singleton] at h
        subst h
        simp only [Option.some.injEq] at he
        subst he
        simp [hpre]
    · intro hok
      have := hok { step := s, err := some e0 } (by simp [hpre])
      simp at this

end ConstructorTheorems

section ConstructorClaims

variable {σ : Type}

theorem andThen_of_ok {a b : Action σ} {c : CoarseDB σ} (h : (a c).2.2 = none) :
    (a.andThen b) c = ((a c).1 ++ (b (a c).2.1).1, (b (a c).2.1).2.1, (b (a c).2.1).2.2) := by
  simp [Action.andThen, h]

theorem andThen_of_err {a b : Action σ} {c : CoarseDB σ} {e : Error}
    (h : (a c).2.2 = some e) : (a.andThen b) c = ((a c).1, (a c).2.1, some e) := by
  simp [Action.andThen, h]

theorem andThen_ok_iff {a b : Action σ} {c : CoarseDB σ} :
    ((a.andThen b) c).2.2 = none ↔ (a c).2.2 = none ∧ (b (a c).2.1).2.2 = none := by
  cases h : (a c).2.2 with
  | none => simp [andThen_of_ok h]
  | some e => simp [andThen_of_err h]

theorem construct_trace (a : Action σ) (c : CoarseDB σ) : (construct a c).1 = (a c).1 := by
  cases h : (a c).2.2 <;> simp [construct, h]

theorem construct_some (a : Action σ) (c d : CoarseDB σ) (h : (construct a c).2.1 = some d) :
    (a c).2.2 = none ∧ d = (a c).2.1 := by
  cases hr : (a c).2.2 with
  | some e => simp [construct, hr] at h
  | none =>
    simp only [construct, hr, Option.some.injEq] at h
    exact ⟨rfl, h.symm⟩

theorem load_eq_runUntilError (m : Methods σ) (c : CoarseDB σ) :
    ((CoarseDB.load m c).1, (CoarseDB.load m c).2.2)
      = runUntilError
          [{ step := .readFasta, err := (m.readFasta c).2 },
           { step := .readSeeds,
             err := (m.readSeeds (readCall .readFasta m.readFasta c).2.1).2 },
           { step := .readLinks,
             err := (m.readLinks (readCall .readSeeds m.readSeeds
                      (readCall .readFasta m.readFasta c).2.1).2.1).2 }] := by
  cases h1 : (m.readFasta c).2 <;>
    cases h2 : (m.readSeeds (readCall .readFasta m.readFasta c).2.1).2 <;>
    cases h3 : (m.readLinks (readCall .readSeeds m.readSeeds
                      (readCall .readFasta m.readFasta c).2.1).2.1).2 <;>
    simp_all [CoarseDB.load, Action.andThen, readCall, runUntilError]

end ConstructorClaims

section ReadConstructor

variable {σ : Type}

theorem keeps_readCall_writeHandles (s : Step) (f : CoarseDB σ → Loaded σ × Option Error) :
    (readCall s f).Keeps WriteHandlesUnset := fun _ h => h

theorem keeps_load_writeHandles (m : Methods σ) :
    (CoarseDB.load m).Keeps WriteHandlesUnset :=
  keeps_andThen (keeps_readCall_writeHandles _ _)
    (keeps_andThen (keeps_readCall_writeHandles _ _) (keeps_readCall_writeHandles _ _))

theorem emits_load_readMode (m : Methods σ) :
    (CoarseDB.load m).Emits (fun ev => ReadModeStep ev.step) :=
  emits_andThen (emits_readCall _ _ (fun _ => Or.inr (Or.inr (Or.inl rfl))))
    (emits_andThen (emits_readCall _ _ (fun _ => Or.inr (Or.inr (Or.inr (Or.inl rfl)))))
      (emits_readCall _ _ (fun _ => Or.inr (Or.inr (Or.inr (Or.inr rfl))))))

theorem load_steps_of_ok (m : Methods σ) (c : CoarseDB σ) (h : (CoarseDB.load m c).2.2 = none) :
    (CoarseDB.load m c).1.map Event.step = [Step.readFasta, Step.readSeeds, Step.readLinks] := by
  have h1 := andThen_ok_iff.mp h
  have h2 := andThen_ok_iff.mp h1.2
  simp only [CoarseDB.load, andThen_of_ok h1.1, andThen_of_ok h2.1]
  rfl

theorem NewReadCoarseDB_trace_mem (m : Methods σ) (db : DB) :
    ∀ ev ∈ (NewReadCoarseDB m db).1, ReadModeStep ev.step := by
  intro ev hev
  simp only [NewReadCoarseDB, construct_trace] at hev
  exact emits_andThen (P := fun ev => ReadModeStep ev.step)
    (emits_openRead db _ _ (Or.inl rfl))
    (emits_andThen (emits_openRead db _ _ (Or.inr (Or.inl rfl))) (emits_load_readMode m))
    _ ev hev

/-- C6: a database opened with `NewReadCoarseDB` never opens the seed-index
write path or the plain-text mirrors. On every execution the only calls are
`openReadFile` on the coarse sequence file and on the link file and the three
read methods of `load()`: no `openWriteFile` call is made and no other file is
opened; the first call opens the coarse sequence file; a returned database has
`FileSeeds`, `plainLinks` and `plainSeeds` unset (nil), and was built by exactly
the two `openReadFile` calls followed by `load()`. -/
theorem NewReadCoarseDB_read_paths_only (m : Methods σ) (db : DB) :
    (∀ ev ∈ (NewReadCoarseDB m db).1, ReadModeStep ev.step)
    ∧ (∀ appnd name,
        Step.openWriteFile appnd name ∉ (NewReadCoarseDB m db).1.map Event.step)
    ∧ (∀ name, Step.openReadFile name ∈ (NewReadCoarseDB m db).1.map Event.step →
        name = FileCoarseFasta ∨ name = FileCoarseLinks)
    ∧ (NewReadCoarseDB m db).1.head?.map Event.step
        = some (Step.openReadFile FileCoarseFasta)
    ∧ (∀ d, (NewReadCoarseDB m db).2.1 = some d →
        d.FileSeeds = none ∧ d.plainLinks = none ∧ d.plainSeeds = none
        ∧ (NewReadCoarseDB m db).1.map Event.step
            = [Step.openReadFile FileCoarseFasta, Step.openReadFile FileCoarseLinks,
               Step.readFasta, Step.readSeeds, Step.readLinks]) := by
  have hmem := NewReadCoarseDB_trace_mem m db
  refine ⟨hmem, ?_, ?_, ?_, ?_⟩
  · intro appnd name h
    obtain ⟨ev, hev, hs⟩ := List.mem_map.mp h
    have := hmem ev hev
    rw [hs] at this
    rcases this with h | h | h | h | h <;> cases h
  · intro name h
    obtain ⟨ev, hev, hs⟩ := List.mem_map.mp h
    have := hmem ev hev
    rw [hs] at this
    rcases this with h | h | h | h | h
    · exact Or.inl (Step.openReadFile.inj h)
    · exact Or.inr (Step.openReadFile.inj h)
    all_goals cases h
  · simp only [NewReadCoarseDB, construct_trace]
    cases h : (db.openReadFile FileCoarseFasta).2 with
    | none => rw [andThen_of_ok (by exact h)]; rfl
    | some e => rw [andThen_of_err (by exact h)]; rfl
  · intro d hd
    simp only [NewReadCoarseDB] at hd
    obtain ⟨hok, hd⟩ := construct_some _ _ _ hd
    have hk : WriteHandlesUnset d := by
      rw [hd]
      exact keeps_andThen (I := WriteHandlesUnset) (fun _ h => h)
        (keeps_andThen (fun _ h => h) (keeps_load_writeHandles m)) _ ⟨rfl, rfl, rfl⟩
    refine ⟨hk.1, hk.2.1, hk.2.2, ?_⟩
    have h1 := andThen_ok_iff.mp hok
    have h2 := andThen_ok_iff.mp h1.2
    simp only [NewReadCoarseDB, construct_trace, andThen_of_ok h1.1, andThen_of_ok h2.1,
      List.map_append, load_steps_of_ok m _ h2.2]
    rfl

/-- `NewReadCoarseDB_read_paths_only` on a directory whose files all open. -/
theorem NewReadCoarseDB_read_paths_only_witness :
    (NewReadCoarseDB okMethods okDB).1.map Event.step
        = [Step.openReadFile FileCoarseFasta, Step.openReadFile FileCoarseLinks,
           Step.readFasta, Step.readSeeds, Step.readLinks]
    ∧ (∃ d, (NewReadCoarseDB okMethods okDB).2.1 = some d
        ∧ d.FileSeeds = none ∧ d.plainLinks = none ∧ d.plainSeeds = none) :=
  ⟨((NewReadCoarseDB_read_paths_only okMethods okDB).2.2.2.2 _ rfl).2.2.2,
   _, rfl,
   ((NewReadCoarseDB_read_paths_only okMethods okDB).2.2.2.2 _ rfl).1,
   ((NewReadCoarseDB_read_paths_only okMethods okDB).2.2.2.2 _ rfl).2.1,
   ((NewReadCoarseDB_read_paths_only okMethods okDB).2.2.2.2 _ rfl).2.2.1⟩

end ReadConstructor

section AllOrNothingClaims

variable {σ : Type}

theorem stops_NewWriteCoarseDB_body (m : Methods σ) (appnd : Bool) (db : DB) :
    AllOrNothing (NewWriteCoarseDB m appnd db) :=
  construct_allOrNothing _ _
    (stops_andThen (stops_openWrite _ _ _ _)
      (stops_andThen (stops_openWrite _ _ _ _)
        (stops_andThen (stops_openWrite _ _ _ _)
          (stops_andThen
            (stops_onlyIf _ (stops_andThen (stops_openWrite _ _ _ _) (stops_openWrite _ _ _ _)))
            (stops_onlyIf _ (stops_load m))))))

theorem stops_NewReadCoarseDB_body (m : Methods σ) (db : DB) :
    AllOrNothing (NewReadCoarseDB m db) :=
  construct_allOrNothing _ _
    (stops_andThen (stops_openRead _ _ _)
      (stops_andThen (stops_openRead _ _ _) (stops_load m)))

theorem faithful_openWrite (db : DB) (a : Bool) (n : String) :
    FaithfulEvent db { step := .openWriteFile a n, err := (db.openWriteFile a n).2 } := by
  constructor
  · intro a' n' h
    cases h
    rfl
  · intro n' h
    cases h

theorem faithful_openRead (db : DB) (n : String) :
    FaithfulEvent db { step := .openReadFile n, err := (db.openReadFile n).2 } := by
  constructor
  · intro a' n' h
    cases h
  · intro n' h
    cases h
    rfl

theorem emits_load_faithful (m : Methods σ) (db : DB) :
    (CoarseDB.load m).Emits (FaithfulEvent db) := by
  have hr : ∀ (s : Step), (s = .readFasta ∨ s = .readSeeds ∨ s = .readLinks) →
      ∀ e, FaithfulEvent db { step := s, err := e } := by
    intro s hs e
    constructor
    · intro a n h
      simp only at h
      rcases hs with h' | h' | h' <;> rw [h'] at h <;> cases h
    · intro n h
      simp only at h
      rcases hs with h' | h' | h' <;> rw [h'] at h <;> cases h
  exact emits_andThen (emits_readCall _ _ (hr _ (Or.inl rfl)))
    (emits_andThen (emits_readCall _ _ (hr _ (Or.inr (Or.inl rfl))))
      (emits_readCall _ _ (hr _ (Or.inr (Or.inr rfl)))))

/-- C7: opening is all-or-nothing. In `NewWriteCoarseDB` and `NewReadCoarseDB`
a call that fails (the opening of a file, or a read method of `load()`) is the
last call made and its error is returned together with a nil database; a
database is returned only with a nil error, and a nil database only with an
error; every open call carries the error its `DB` method returned. `load()`
runs `readFasta`, `readSeeds`, `readLinks` in that order up to and including
the first that fails and returns that error; it returns nil exactly when all
three succeed. -/
theorem opening_all_or_nothing (m : Methods σ) (appnd : Bool) (db : DB) (c : CoarseDB σ) :
    AllOrNothing (NewWriteCoarseDB m appnd db)
    ∧ AllOrNothing (NewReadCoarseDB m db)
    ∧ (∀ ev ∈ (NewWriteCoarseDB m appnd db).1, FaithfulEvent db ev)
    ∧ (∀ ev ∈ (NewReadCoarseDB m db).1, FaithfulEvent db ev)
    ∧ ((CoarseDB.load m c).1, (CoarseDB.load m c).2.2)
        = runUntilError
            [{ step := .readFasta, err := (m.readFasta c).2 },
             { step := .readSeeds,
               err := (m.readSeeds (readCall .readFasta m.readFasta c).2.1).2 },
             { step := .readLinks,
               err := (m.readLinks (readCall .readSeeds m.readSeeds
                        (readCall .readFasta m.readFasta c).2.1).2.1).2 }]
    ∧ ((CoarseDB.load m c).2.2 = none ↔
        (m.readFasta c).2 = none
        ∧ (m.readSeeds (readCall .readFasta m.readFasta c).2.1).2 = none
        ∧ (m.readLinks (readCall .readSeeds m.readSeeds
              (readCall .readFasta m.readFasta c).2.1).2.1).2 = none) := by
  refine ⟨stops_NewWriteCoarseDB_body m appnd db, stops_NewReadCoarseDB_body m db, ?_, ?_,
    load_eq_runUntilError m c, ?_⟩
  · intro ev hev
    simp only [NewWriteCoarseDB, construct_trace] at hev
    exact emits_andThen (P := FaithfulEvent db)
      (emits_openWrite db _ _ _ (faithful_openWrite db _ _))
      (emits_andThen (emits_openWrite db _ _ _ (faithful_openWrite db _ _))
        (emits_andThen (emits_openWrite db _ _ _ (faithful_openWrite db _ _))
          (emits_andThen
            (emits_onlyIf _
              (emits_andThen (emits_openWrite db _ _ _ (faithful_openWrite db _ _))
                (emits_openWrite db _ _ _ (faithful_openWrite db _ _))))
            (emits_onlyIf _ (emits_load_faithful m db)))))
      _ ev hev
  · intro ev hev
    simp only [NewReadCoarseDB, construct_trace] at hev
    exact emits_andThen (P := FaithfulEvent db)
      (emits_openRead db _ _ (faithful_openRead db _))
      (emits_andThen (emits_openRead db _ _ (faithful_openRead db _))
        (emits_load_faithful m db))
      _ ev hev
  · simp only [CoarseDB.load, andThen_ok_iff]
    rfl

/-- `opening_all_or_nothing` on a directory whose link file cannot be opened
(both constructors return nil and the error) and on one whose files open. -/
theorem opening_all_or_nothing_witness :
    (NewWriteCoarseDB okMethods true noLinksDB).2 = (none, some "permission denied")
    ∧ (NewReadCoarseDB okMethods noLinksDB).2 = (none, some "permission denied")
    ∧ (∃ d, (NewWriteCoarseDB okMethods true okDB).2 = (some d, none)) :=
  ⟨((opening_all_or_nothing okMethods true noLinksDB oneSeqDB).1.1
      { step := .openWriteFile false FileCoarseLinks, err := some "permission denied" }
      (by decide) _ rfl).1,
   ((opening_all_or_nothing okMethods true noLinksDB oneSeqDB).2.1.1
      { step := .openReadFile FileCoarseLinks, err := some "permission denied" }
      (by decide) _ rfl).1,
   (opening_all_or_nothing okMethods true okDB oneSeqDB).1.2.1 (by decide)⟩

end AllOrNothingClaims

section AppendFlagClaims

variable {σ : Type}

/-- What a call of `NewWriteCoarseDB` is: an open for writing allowed by
`WriteModeOpen`, or a read method, the latter only when `appnd` is set. -/
theorem NewWriteCoarseDB_trace_mem (m : Methods σ) (appnd : Bool) (db : DB) :
    ∀ ev ∈ (NewWriteCoarseDB m appnd db).1,
      (∃ a n, ev.step = Step.openWriteFile a n ∧ WriteModeOpen appnd a n)
      ∨ (ev.step.isRead = true ∧ appnd = true) := by
  intro ev hev
  simp only [NewWriteCoarseDB, construct_trace] at hev
  have hload : (Action.onlyIf (fun _ => appnd) (CoarseDB.load m)).Emits
      (fun ev => (∃ a n, ev.step = Step.openWriteFile a n ∧ WriteModeOpen appnd a n)
        ∨ (ev.step.isRead = true ∧ appnd = true)) := by
    intro c ev h
    simp only [Action.onlyIf] at h
    split at h
    · rename_i happ
      have hr : (CoarseDB.load m).Emits (fun ev => ev.step.isRead = true) :=
        emits_andThen (emits_readCall _ _ (fun _ => rfl))
          (emits_andThen (emits_readCall _ _ (fun _ => rfl)) (emits_readCall _ _ (fun _ => rfl)))
      exact Or.inr ⟨hr c ev h, happ⟩
    · simp [Action.skip] at h
  exact emits_andThen
    (P := fun ev => (∃ a n, ev.step = Step.openWriteFile a n ∧ WriteModeOpen appnd a n)
        ∨ (ev.step.isRead = true ∧ appnd = true))
    (emits_openWrite db _ _ _ (Or.inl ⟨_, _, rfl, Or.inl ⟨rfl, rfl⟩⟩))
    (emits_andThen
      (emits_openWrite db _ _ _ (Or.inl ⟨_, _, rfl, Or.inr ⟨rfl, Or.inl rfl⟩⟩))
      (emits_andThen
        (emits_openWrite db _ _ _ (Or.inl ⟨_, _, rfl, Or.inr ⟨rfl, Or.inr (Or.inl rfl)⟩⟩))
        (emits_andThen
          (emits_onlyIf _
            (emits_andThen
              (emits_openWrite db _ _ _
                (Or.inl ⟨_, _, rfl, Or.inr ⟨rfl, Or.inr (Or.inr (Or.inl rfl))⟩⟩))
              (emits_openWrite db _ _ _
                (Or.inl ⟨_, _, rfl, Or.inr ⟨rfl, Or.inr (Or.inr (Or.inr rfl))⟩⟩))))
          hload)))
    _ ev hev

/-- C8 as stated fails: with `appnd = true` and every call succeeding,
`NewWriteCoarseDB` opens the seed file and the link file with the append flag
false, so `openWriteFile` does not receive `appnd = true` for all three
files. -/
theorem NewWriteCoarseDB_append_only_for_fasta :
    (NewWriteCoarseDB okMethods true okDB).1.map Event.step
      = [Step.openWriteFile true FileCoarseFasta, Step.openWriteFile false FileCoarseSeeds,
         Step.openWriteFile false FileCoarseLinks,
         Step.readFasta, Step.readSeeds, Step.readLinks]
    ∧ ¬ (∀ name ∈ [FileCoarseFasta, FileCoarseSeeds, FileCoarseLinks],
          Step.openWriteFile true name ∈ (NewWriteCoarseDB okMethods true okDB).1.map Event.step) := by
  decide

end AppendFlagClaims

section AppendFlagAmended

variable {σ : Type}

theorem load_head (m : Methods σ) (c : CoarseDB σ) :
    (CoarseDB.load m c).1.head?.map Event.step = some Step.readFasta := by
  cases h : (m.readFasta c).2 with
  | none => simp only [CoarseDB.load]; rw [andThen_of_ok (by exact h)]; rfl
  | some e => simp only [CoarseDB.load]; rw [andThen_of_err (by exact h)]; rfl

theorem load_readFasta_mem (m : Methods σ) (c : CoarseDB σ) :
    Step.readFasta ∈ (CoarseDB.load m c).1.map Event.step := by
  have h := load_head m c
  cases hl : (CoarseDB.load m c).1 with
  | nil => simp [hl] at h
  | cons ev rest =>
    simp only [hl, List.head?_cons, Option.map_some', Option.some.injEq] at h
    simp [h]

/-- When its files open, `NewWriteCoarseDB` is the open calls followed by
`load()` (with `appnd`) on the struct built so far, or by nothing. -/
theorem NewWriteCoarseDB_of_opens (m : Methods σ) (appnd : Bool) (db : DB)
    (hF : (db.openWriteFile appnd FileCoarseFasta).2 = none)
    (hS : (db.openWriteFile false FileCoarseSeeds).2 = none)
    (hL : (db.openWriteFile false FileCoarseLinks).2 = none)
    (hP : db.SavePlain = true → (db.openWriteFile false FileCoarsePlainLinks).2 = none
          ∧ (db.openWriteFile false FileCoarsePlainSeeds).2 = none) :
    (NewWriteCoarseDB m appnd db).1
        = writeOpens appnd db
          ++ (Action.onlyIf (fun _ => appnd) (CoarseDB.load m) (openedForWrite m appnd db)).1
    ∧ (NewWriteCoarseDB m appnd db).2
        = (construct (Action.onlyIf (fun _ => appnd) (CoarseDB.load m))
            (openedForWrite m appnd db)).2 := by
  have hbody : ∀ (tail : Action σ),
      ((openWrite db appnd FileCoarseFasta (fun c f => { c with FileFasta := f })).andThen
        ((openWrite db false FileCoarseSeeds (fun c f => { c with FileSeeds := f })).andThen
          ((openWrite db false FileCoarseLinks (fun c f => { c with FileLinks := f })).andThen
            ((Action.onlyIf (fun c => c.plain)
                ((openWrite db false FileCoarsePlainLinks
                    (fun c f => { c with plainLinks := f })).andThen
                  (openWrite db false FileCoarsePlainSeeds
                    (fun c f => { c with plainSeeds := f })))).andThen tail))))
        { Seqs := [], seqsRead := 0, Seeds := m.NewSeeds db.MapSeedSize,
          FileFasta := none, FileSeeds := none, FileLinks := none,
          seqLock := some {},
          readOnly := db.ReadOnly, plain := db.SavePlain,
          plainLinks := none, plainSeeds := none }
      = (writeOpens appnd db ++ (tail (openedForWrite m appnd db)).1,
         (tail (openedForWrite m appnd db)).2.1, (tail (openedForWrite m appnd db)).2.2) := by
    intro tail
    rw [andThen_of_ok (by exact hF), andThen_of_ok (by exact hS),
      andThen_of_ok (by exact hL)]
    cases hpl : db.SavePlain with
    | false =>
      rw [andThen_of_ok (by simp [Action.onlyIf, Action.skip, openWrite, hpl])]
      simp [Action.onlyIf, Action.skip, openWrite, hpl, writeOpens, openedForWrite, hF, hS, hL]
    | true =>
      obtain ⟨h4, h5⟩ := hP hpl
      have hplain : ∀ c : CoarseDB σ, c.plain = true →
          (Action.onlyIf (fun c => c.plain)
            ((openWrite db false FileCoarsePlainLinks
                (fun c f => { c with plainLinks := f })).andThen
              (openWrite db false FileCoarsePlainSeeds
                (fun c f => { c with plainSeeds := f })))) c
          = ([{ step := .openWriteFile false FileCoarsePlainLinks, err := none },
              { step := .openWriteFile false FileCoarsePlainSeeds, err := none }],
             { c with plainLinks := (db.openWriteFile false FileCoarsePlainLinks).1
                      plainSeeds := (db.openWriteFile false FileCoarsePlainSeeds).1 },
             none) := by
        intro c hc
        unfold Action.onlyIf
        rw [if_pos hc, andThen_of_ok (by exact h4)]
        simp [openWrite, h4, h5]
      rw [andThen_of_ok (by rw [hplain _ rfl]), hplain _ rfl]
      simp [openWrite, hpl, writeOpens, openedForWrite, hF, hS, hL]
  simp only [NewWriteCoarseDB, construct, hbody]
  cases (Action.onlyIf (fun _ => appnd) (CoarseDB.load m) (openedForWrite m appnd db)).2.2 <;>
    exact ⟨rfl, rfl⟩

/-- C8 as amended: `NewWriteCoarseDB` passes `appnd` to `openWriteFile` for the
coarse sequence file only, which it opens first; the seed file, the link file
and the plain mirrors are opened with the append flag false, so an open with
the flag set happens only for the coarse sequence file and only when `appnd`
is true. With `appnd = false` no file is opened for append and `load()` is not
called. When the three files (and, with `SavePlain`, the two mirrors) open,
the calls made are exactly those opens, in the order coarse sequence file, seed
file, link file, mirrors, followed with `appnd = true` by the calls of
`load()` on the struct built so far (`readFasta`, `readSeeds`, `readLinks` up
to the first that fails) and with `appnd = false` by nothing; the result is
then that of `load()`, or the struct with a nil error. -/
theorem NewWriteCoarseDB_append_flags (m : Methods σ) (appnd : Bool) (db : DB) :
    (NewWriteCoarseDB m appnd db).1.head?.map Event.step
        = some (Step.openWriteFile appnd FileCoarseFasta)
    ∧ (∀ a n, Step.openWriteFile a n ∈ (NewWriteCoarseDB m appnd db).1.map Event.step →
        WriteModeOpen appnd a n)
    ∧ (∀ n, Step.openWriteFile true n ∈ (NewWriteCoarseDB m appnd db).1.map Event.step →
        appnd = true ∧ n = FileCoarseFasta)
    ∧ (appnd = false →
        ∀ s ∈ (NewWriteCoarseDB m appnd db).1.map Event.step, s.isRead = false)
    ∧ ((db.openWriteFile appnd FileCoarseFasta).2 = none →
        (db.openWriteFile false FileCoarseSeeds).2 = none →
        (db.openWriteFile false FileCoarseLinks).2 = none →
        (db.SavePlain = true → (db.openWriteFile false FileCoarsePlainLinks).2 = none
          ∧ (db.openWriteFile false FileCoarsePlainSeeds).2 = none) →
        (NewWriteCoarseDB m appnd db).1
            = writeOpens appnd db
              ++ (if appnd then (runUntilError (loadPlan m (openedForWrite m appnd db))).1
                  else [])
        ∧ (appnd = true →
            (NewWriteCoarseDB m appnd db).1
                = writeOpens appnd db ++ (CoarseDB.load m (openedForWrite m appnd db)).1
            ∧ (NewWriteCoarseDB m appnd db).2
                = (construct (CoarseDB.load m) (openedForWrite m appnd db)).2
            ∧ ((CoarseDB.load m (openedForWrite m appnd db)).1,
                (CoarseDB.load m (openedForWrite m appnd db)).2.2)
                = runUntilError (loadPlan m (openedForWrite m appnd db)))
        ∧ (appnd = false →
            (NewWriteCoarseDB m appnd db).2 = (some (openedForWrite m appnd db), none))
        ∧ ((NewWriteCoarseDB m appnd db).1.map Event.step).take 3
            = [Step.openWriteFile appnd FileCoarseFasta,
               Step.openWriteFile false FileCoarseSeeds,
               Step.openWriteFile false FileCoarseLinks]
        ∧ (appnd = true →
            Step.readFasta ∈ (NewWriteCoarseDB m appnd db).1.map Event.step)) := by
  have hmem := NewWriteCoarseDB_trace_mem m appnd db
  have hopen : ∀ a n, Step.openWriteFile a n ∈ (NewWriteCoarseDB m appnd db).1.map Event.step →
      WriteModeOpen appnd a n := by
    intro a n h
    obtain ⟨ev, hev, hs⟩ := List.mem_map.mp h
    rcases hmem ev hev with ⟨a', n', hst, hw⟩ | ⟨hr, _⟩
    · rw [hs] at hst
      cases hst
      exact hw
    · rw [hs] at hr
      simp [Step.isRead] at hr
  refine ⟨?_, hopen, ?_, ?_, ?_⟩
  · simp only [NewWriteCoarseDB, construct_trace]
    cases h : (db.openWriteFile appnd FileCoarseFasta).2 with
    | none => rw [andThen_of_ok (by exact h)]; rfl
    | some e => rw [andThen_of_err (by exact h)]; rfl
  · intro n h
    rcases hopen true n h with ⟨hn, ha⟩ | ⟨ha, _⟩
    · exact ⟨ha.symm, hn⟩
    · cases ha
  · intro happ s hs
    obtain ⟨ev, hev, rfl⟩ := List.mem_map.mp hs
    rcases hmem ev hev with ⟨a', n', hst, _⟩ | ⟨_, ht⟩
    · rw [hst]
      rfl
    · rw [happ] at ht
      cases ht
  · intro hF hS hL hP
    obtain ⟨htr, hres⟩ := NewWriteCoarseDB_of_opens m appnd db hF hS hL hP
    have hload : ((CoarseDB.load m (openedForWrite m appnd db)).1,
        (CoarseDB.load m (openedForWrite m appnd db)).2.2)
        = runUntilError (loadPlan m (openedForWrite m appnd db)) :=
      load_eq_runUntilError m (openedForWrite m appnd db)
    have htail : appnd = true →
        Action.onlyIf (fun _ => appnd) (CoarseDB.load m) (openedForWrite m appnd db)
          = CoarseDB.load m (openedForWrite m appnd db) := by
      intro happ
      simp only [Action.onlyIf, happ, if_true]
    refine ⟨?_, ?_, ?_, ?_, ?_⟩
    · rw [htr]
      cases happ : appnd with
      | true =>
        rw [← happ, htail happ, ← congrArg Prod.fst hload]
        simp [happ]
      | false => simp [Action.onlyIf, Action.skip]
    · intro happ
      refine ⟨by rw [htr, htail happ], ?_, hload⟩
      rw [hres]
      simp only [construct, htail happ]
    · intro happ
      rw [hres]
      simp [construct, Action.onlyIf, Action.skip, happ]
    · rw [htr]
      simp [writeOpens]
    · intro happ
      rw [htr, htail happ, List.map_append, List.mem_append]
      exact Or.inr (load_readFasta_mem m _)

/-- `NewWriteCoarseDB_append_flags` on a directory whose files all open, with
`appnd` true and false. -/
theorem NewWriteCoarseDB_append_flags_witness :
    ((NewWriteCoarseDB okMethods true okDB).1.map Event.step).take 3
        = [Step.openWriteFile true FileCoarseFasta,
           Step.openWriteFile false FileCoarseSeeds,
           Step.openWriteFile false FileCoarseLinks]
    ∧ Step.readFasta ∈ (NewWriteCoarseDB okMethods true okDB).1.map Event.step
    ∧ (∀ s ∈ (NewWriteCoarseDB okMethods false okDB).1.map Event.step, s.isRead = false)
    ∧ (NewWriteCoarseDB okMethods true okDB).1
        = [{ step := .openWriteFile true FileCoarseFasta, err := none },
           { step := .openWriteFile false FileCoarseSeeds, err := none },
           { step := .openWriteFile false FileCoarseLinks, err := none },
           { step := .readFasta, err := none },
           { step := .readSeeds, err := none },
           { step := .readLinks, err := none }] :=
  ⟨((NewWriteCoarseDB_append_flags okMethods true okDB).2.2.2.2 rfl rfl rfl
      (fun h => absurd h (by decide))).2.2.2.1,
   ((NewWriteCoarseDB_append_flags okMethods true okDB).2.2.2.2 rfl rfl rfl
      (fun h => absurd h (by decide))).2.2.2.2 rfl,
   (NewWriteCoarseDB_append_flags okMethods false okDB).2.2.2.1 rfl,
   ((NewWriteCoarseDB_append_flags okMethods true okDB).2.2.2.2 rfl rfl rfl
      (fun h => absurd h (by decide))).1⟩

end AppendFlagAmended

/-! ## Theorems on the argument scan of `init` -/

section InitScan

theorem scanFrom_no_token (rest : List String) (h : "--blast-args" ∉ rest) :
    ∀ (i : Nat) (st : Args), scanFrom i rest st = some st := by
  induction rest with
  | nil => intro i st; rfl
  | cons arg rest ih =>
    intro i st
    have h1 : arg ≠ "--blast-args" := fun e => h (e ▸ List.mem_cons_self _ _)
    have h2 : "--blast-args" ∉ rest := fun m => h (List.mem_cons_of_mem _ m)
    simp [scanFrom, scanArg, h1, ih h2]

theorem scanFrom_append (pre rest : List String) (h : "--blast-args" ∉ pre) :
    ∀ (i : Nat) (st : Args), scanFrom i (pre ++ rest) st = scanFrom (i + pre.length) rest st := by
  induction pre with
  | nil => intro i st; rfl
  | cons arg pre ih =>
    intro i st
    have h1 : arg ≠ "--blast-args" := fun e => h (e ▸ List.mem_cons_self _ _)
    have h2 : "--blast-args" ∉ pre := fun m => h (List.mem_cons_of_mem _ m)
    simp only [List.cons_append, scanFrom, scanArg, h1, if_false, List.length_cons]
    have := ih h2 (i + 1) st
    rw [show i + (pre.length + 1) = i + 1 + pre.length by omega]
    exact this

/-- The scan of `init` on an argument vector with exactly one `--blast-args`:
it completes, `os.Args` is what precedes the token and `blastArgs` what
follows it. -/
theorem init_single_token (pre post : List String)
    (hpre : "--blast-args" ∉ pre) (hpost : "--blast-args" ∉ post) :
    ∃ st, init (pre ++ "--blast-args" :: post) = some st
      ∧ st.osArgs.elems = pre ∧ st.blastArgs.elems = post := by
  unfold init
  rw [scanFrom_append pre _ hpre]
  simp only [scanFrom, scanArg, if_true, Slice.sliceFrom, Slice.sliceTo, Slice.ofList,
    Slice.cap, List.length_append, List.length_cons, Nat.zero_add]
  rw [if_pos (by omega), if_pos (by omega)]
  simp only
  rw [scanFrom_no_token post hpost]
  refine ⟨_, rfl, ?_, ?_⟩
  · simp [Slice.elems]
  · simp only [Slice.elems, List.drop_append_eq_append_drop, List.drop_length_cons]
    rw [List.drop_of_length_le (by omega)]
    simp only [List.nil_append, Nat.sub_self, Nat.add_sub_cancel_left, List.drop]
    rw [show pre.length + (post.length + 1) - (pre.length + 1) = post.length by omega]
    exact List.take_length _

/-- The scan of `init` on an argument vector without `--blast-args`: `os.Args`
is unchanged and `blastArgs` stays empty. -/
theorem init_no_token (args : List String) (h : "--blast-args" ∉ args) :
    ∃ st, init args = some st ∧ st.osArgs.elems = args ∧ st.blastArgs.elems = [] := by
  unfold init
  rw [scanFrom_no_token args h]
  exact ⟨_, rfl, by simp [Slice.elems, Slice.ofList], rfl⟩

/-- The scan of `init` on an argument vector with a second `--blast-args`: the
loop goes on after the first token, and at the second one `os.Args[i+1:]` is
out of range of the shortened `os.Args`: the program panics. -/
theorem init_second_token_panics (pre mid post : List String)
    (hpre : "--blast-args" ∉ pre) (hmid : "--blast-args" ∉ mid) :
    init (pre ++ "--blast-args" :: (mid ++ "--blast-args" :: post)) = none := by
  unfold init
  rw [scanFrom_append pre _ hpre]
  simp only [scanFrom, scanArg, if_true, Slice.sliceFrom, Slice.sliceTo, Slice.ofList,
    Slice.cap, List.length_append, List.length_cons, Nat.zero_add]
  rw [if_pos (by omega), if_pos (by omega)]
  simp only
  rw [scanFrom_append mid _ hmid]
  simp only [scanFrom, scanArg, if_true, Slice.sliceFrom]
  rw [if_neg (by omega)]

/-- C9 on the code: with `--blast-args` given twice the scan of `init` does not
complete. After the first token `os.Args` has length 3; the loop has no `break`
and at the second token (index 5) evaluates `os.Args[6:]`, which panics. -/
theorem init_panics_on_repeated_token :
    init ["cablastp-xsearch", "db", "query.fasta", "--blast-args", "-evalue",
          "--blast-args"] = none := by
  decide

/-- `init_single_token` on a command line with two BLAST arguments. -/
theorem init_single_token_witness :
    ∃ st, init (["cablastp-xsearch", "db", "query.fasta"] ++ "--blast-args" :: ["-evalue", "10"])
        = some st
      ∧ st.osArgs.elems = ["cablastp-xsearch", "db", "query.fasta"]
      ∧ st.blastArgs.elems = ["-evalue", "10"] :=
  init_single_token ["cablastp-xsearch", "db", "query.fasta"] ["-evalue", "10"]
    (by decide) (by decide)

/-- `init_no_token` on a command line without BLAST arguments. -/
theorem init_no_token_witness :
    ∃ st, init ["cablastp-xsearch", "db", "query.fasta"] = some st
      ∧ st.osArgs.elems = ["cablastp-xsearch", "db", "query.fasta"]
      ∧ st.blastArgs.elems = [] :=
  init_no_token ["cablastp-xsearch", "db", "query.fasta"] (by decide)

/-- `init_second_token_panics` on a command line with the token twice. -/
theorem init_second_token_panics_witness :
    init (["cablastp-xsearch"] ++ "--blast-args" :: (["-evalue"] ++ "--blast-args" :: ["10"]))
      = none :=
  init_second_token_panics ["cablastp-xsearch"] ["-evalue"] ["10"] (by decide) (by decide)

end InitScan

/-! ## Theorems on the query loop of `main` -/

section QueryLoop

theorem forLoop_true_not_left (body : QueryState → Run QueryState) (fuel : Nat) :
    ∀ st st1, forLoop (fun _ => true) body fuel st ≠ LoopOutcome.left st1 := by
  induction fuel with
  | zero => intro st st1 h; simp [forLoop] at h
  | succ n ih =>
    intro st st1 h
    simp only [forLoop, if_true] at h
    split at h
    · cases h
    · exact ih _ _ h

theorem translateQueries_exhausted (x : Collaborators) (buf : List FastaSeq)
    (ps : List (List FastaSeq)) :
    translateQueries x { reader := [], queryBuf := buf, processed := ps }
      = Run.ret { reader := [], queryBuf := buf, processed := ps } := rfl

theorem forLoop_exhausted (x : Collaborators) (fl : Flags) (hfl : fl.flagIterativeQuery = false)
    (buf : List FastaSeq) (ps : List (List FastaSeq)) (fuel : Nat) :
    forLoop (fun _ => true) (queryLoopBody fl x) fuel
        { reader := [], queryBuf := buf, processed := ps }
      = LoopOutcome.running { reader := [], queryBuf := buf, processed := ps } := by
  induction fuel with
  | zero => rfl
  | succ n ih =>
    simp only [forLoop, if_true, queryLoopBody, hfl, Bool.false_eq_true, if_false,
      translateQueries_exhausted]
    exact ih

/-- The query loop of `main` in batch mode on an input without read errors:
whatever the number of iterations, the loop is still running, and
`processQueries` has not been called. -/
theorem forLoop_batch_running (x : Collaborators) (fl : Flags)
    (hfl : fl.flagIterativeQuery = false) (seqs : List FastaSeq) :
    ∀ (fuel : Nat) (buf : List FastaSeq),
      ∃ st, forLoop (fun _ => true) (queryLoopBody fl x) fuel
          { reader := seqs.map Except.ok, queryBuf := buf, processed := [] }
        = LoopOutcome.running st ∧ st.processed = [] := by
  induction seqs with
  | nil =>
    intro fuel buf
    exact ⟨_, forLoop_exhausted x fl hfl buf [] fuel, rfl⟩
  | cons s rest ih =>
    intro fuel buf
    cases fuel with
    | zero => exact ⟨_, rfl, rfl⟩
    | succ n =>
      simp only [forLoop, if_true, queryLoopBody, hfl, Bool.false_eq_true, if_false,
        translateQueries, List.map_cons, Reader.Read]
      exact ih n _

/-- C10 on the code: in the default non-iterative mode `main` never reaches
`cleanup(db)`, whatever the query input and however many iterations its query
loop is given; on an input without read errors (the one-record FASTA file
included) the loop is still running after any number of iterations, with
`processQueries` not called once. -/
theorem main_batch_never_cleans_up (x : Collaborators) (chunk : Int) (fuel : Nat)
    (input : Reader) (seqs : List FastaSeq) :
    (∀ ps, main { flagCompressQuery := false, flagIterativeQuery := false,
                   flagQueryChunkSize := chunk } x fuel input
            ≠ MainOutcome.cleanedUp ps)
    ∧ (∃ st, main { flagCompressQuery := false, flagIterativeQuery := false,
                     flagQueryChunkSize := chunk } x fuel (seqs.map Except.ok)
              = MainOutcome.running st ∧ st.processed = [])
    ∧ (∃ st, main defaultFlags plainCollaborators fuel
                [Except.ok { Name := "q1", Residues := [65, 67, 71, 84] }]
              = MainOutcome.running st ∧ st.processed = []) := by
  have hrun : ∀ (fl : Flags) (y : Collaborators) (ss : List FastaSeq),
      fl.flagCompressQuery = false → fl.flagIterativeQuery = false →
      ∃ st, main fl y fuel (ss.map Except.ok) = MainOutcome.running st ∧ st.processed = [] := by
    intro fl y ss hc hi
    obtain ⟨st, hst, hp⟩ := forLoop_batch_running y fl hi ss fuel []
    exact ⟨st, by simp only [main, hc, Bool.false_eq_true, if_false, hst], hp⟩
  refine ⟨?_, hrun _ x seqs rfl rfl, ?_⟩
  · intro ps h
    simp only [main, Bool.false_eq_true, if_false] at h
    split at h
    · cases h
    · cases h
    · rename_i st hl
      exact forLoop_true_not_left _ _ _ _ hl
  · exact hrun defaultFlags plainCollaborators [{ Name := "q1", Residues := [65, 67, 71, 84] }]
      rfl rfl

end QueryLoop

/-! ## Theorems on `writeFasta` -/

section WriteFasta

theorem bytesOf_marker : bytesOf "> " = [62, 32] ∧ bytesOf "\n" = [10] := by
  decide

theorem fprintfFasta_eq (buf : List Nat) (oseq : OriginalSeq) :
    fprintfFasta buf oseq.Name oseq.Residues = (buf ++ fastaRecord oseq, none) := by
  simp only [fprintfFasta, fastaRecord, bytesOf_marker.1, bytesOf_marker.2]

theorem writeFasta_eq (oseqs : List OriginalSeq) :
    ∀ b : List Nat, writeFasta oseqs b = (b ++ oseqs.flatMap fastaRecord, none) := by
  induction oseqs with
  | nil => intro b; simp [writeFasta]
  | cons oseq rest ih =>
    intro b
    simp only [writeFasta, fprintfFasta_eq, ih, List.flatMap_cons, List.append_assoc]

/-- C11: `writeFasta` writes the expanded sequences as a FASTA target in input
order. For every list of original sequences and every initial buffer content
`b`, the buffer afterwards holds `b` followed by, for each sequence in list
order, the bytes `"> " + Name + "\n" + Residues + "\n"`, and the returned error
is nil; the empty list writes nothing; writing `xs` then `ys` into the same
buffer gives the bytes of writing `xs ++ ys`. -/
theorem writeFasta_records_in_order (xs ys : List OriginalSeq) (b : List Nat) :
    writeFasta xs b = (b ++ xs.flatMap fastaRecord, none)
    ∧ (∀ oseq : OriginalSeq,
        fastaRecord oseq
          = bytesOf "> " ++ bytesOf oseq.Name ++ bytesOf "\n" ++ oseq.Residues ++ bytesOf "\n")
    ∧ writeFasta [] b = (b, none)
    ∧ writeFasta ys (writeFasta xs b).1 = writeFasta (xs ++ ys) b := by
  refine ⟨writeFasta_eq xs b, ?_, rfl, ?_⟩
  · intro oseq
    simp only [fastaRecord, bytesOf_marker.1, bytesOf_marker.2]
  · simp only [writeFasta_eq, List.flatMap_append, List.append_assoc]

/-- `writeFasta_records_in_order` on one sequence named `q1` with the residues
`AC`, written into an empty buffer: the bytes of `"> q1\nAC\n"`. -/
theorem writeFasta_records_in_order_witness :
    writeFasta [{ Name := "q1", Residues := [65, 67], Offset := 0, Id := 7 }] []
      = ([62, 32, 113, 49, 10, 65, 67, 10], none) :=
  (writeFasta_records_in_order [{ Name := "q1", Residues := [65, 67], Offset := 0, Id := 7 }]
    [] []).1.trans (by decide)

end WriteFasta

/-! ## Theorems on the hits `expandBlastHits` returns -/

section ExpandOrder

variable {ω : Type}

theorem keepFirst_append (xs ys : List OriginalSeq) :
    ∀ e : List OriginalSeq, keepFirst e (xs ++ ys) = keepFirst e xs ++ keepFirst (e ++ xs) ys := by
  induction xs with
  | nil => intro e; simp [keepFirst]
  | cons o rest ih =>
    intro e
    have h := ih (e ++ [o])
    simp only [List.append_assoc, List.singleton_append] at h
    by_cases ho : o.Id ∈ e.map OriginalSeq.Id
    · simp only [List.cons_append, keepFirst, if_pos ho]
      exact h
    · simp only [List.cons_append, keepFirst, if_neg ho]
      exact congrArg (List.cons o) h

theorem keepFirst_sublist (l : List OriginalSeq) :
    ∀ e : List OriginalSeq, (keepFirst e l).Sublist l := by
  induction l with
  | nil => intro e; exact List.Sublist.slnil
  | cons o rest ih =>
    intro e
    simp only [keepFirst]
    split
    · exact (ih _).cons _
    · exact (ih _).cons₂ _

theorem keepFirst_ids (l : List OriginalSeq) :
    ∀ (e : List OriginalSeq) (id : Int),
      id ∈ (keepFirst e l).map OriginalSeq.Id
        ↔ id ∈ l.map OriginalSeq.Id ∧ id ∉ e.map OriginalSeq.Id := by
  induction l with
  | nil => intro e id; simp [keepFirst]
  | cons o rest ih =>
    intro e id
    have hmem : id ∈ (e ++ [o]).map OriginalSeq.Id
        ↔ id ∈ e.map OriginalSeq.Id ∨ id = o.Id := by simp
    have hcons : id ∈ (o :: rest).map OriginalSeq.Id
        ↔ id = o.Id ∨ id ∈ rest.map OriginalSeq.Id := by simp
    simp only [keepFirst]
    by_cases ho : o.Id ∈ e.map OriginalSeq.Id
    · rw [if_pos ho, ih, hmem, hcons]
      constructor
      · rintro ⟨h1, h2⟩
        exact ⟨Or.inr h1, fun h => h2 (Or.inl h)⟩
      · rintro ⟨h1 | h1, h2⟩
        · exact absurd (h1 ▸ ho) h2
        · exact ⟨h1, fun h => h.elim h2 (fun h3 => h2 (h3 ▸ ho))⟩
    · rw [if_neg ho, List.map_cons, List.mem_cons, ih, hmem, hcons]
      constructor
      · rintro (h | ⟨h1, h2⟩)
        · exact ⟨Or.inl h, h ▸ ho⟩
        · exact ⟨Or.inr h1, fun h => h2 (Or.inl h)⟩
      · rintro ⟨h1 | h1, h2⟩
        · exact Or.inl h1
        · by_cases hid : id = o.Id
          · exact Or.inl hid
          · exact Or.inr ⟨h1, fun h => h.elim h2 hid⟩

theorem mem_keepFirst (l : List OriginalSeq) :
    ∀ (e : List OriginalSeq) (o : OriginalSeq),
      o ∈ keepFirst e l
        ↔ ∃ pre post, l = pre ++ o :: post ∧ o.Id ∉ (e ++ pre).map OriginalSeq.Id := by
  induction l with
  | nil => intro e o; simp [keepFirst]
  | cons x rest ih =>
    intro e o
    have hrest : o ∈ keepFirst (e ++ [x]) rest
        ↔ ∃ pre post, x :: rest = (x :: pre) ++ o :: post
            ∧ o.Id ∉ (e ++ (x :: pre)).map OriginalSeq.Id := by
      rw [ih]
      constructor
      · rintro ⟨pre, post, h1, h2⟩
        exact ⟨pre, post, by rw [h1]; rfl, by simpa [List.append_assoc] using h2⟩
      · rintro ⟨pre, post, h1, h2⟩
        exact ⟨pre, post, by simpa using h1, by simpa [List.append_assoc] using h2⟩
    have hsplit : (∃ pre post, x :: rest = pre ++ o :: post
          ∧ o.Id ∉ (e ++ pre).map OriginalSeq.Id)
        ↔ (x = o ∧ o.Id ∉ e.map OriginalSeq.Id)
          ∨ ∃ pre post, x :: rest = (x :: pre) ++ o :: post
              ∧ o.Id ∉ (e ++ (x :: pre)).map OriginalSeq.Id := by
      constructor
      · rintro ⟨pre, post, h1, h2⟩
        cases pre with
        | nil =>
          simp only [List.nil_append, List.cons.injEq] at h1
          exact Or.inl ⟨h1.1, by simpa using h2⟩
        | cons y pre =>
          simp only [List.cons_append, List.cons.injEq] at h1
          obtain ⟨rfl, h1⟩ := h1
          exact Or.inr ⟨pre, post, by rw [h1]; rfl, h2⟩
      · rintro (⟨rfl, h⟩ | ⟨pre, post, h1, h2⟩)
        · exact ⟨[], rest, rfl, by simpa using h⟩
        · exact ⟨x :: pre, post, h1, h2⟩
    rw [hsplit]
    simp only [keepFirst]
    by_cases hx : x.Id ∈ e.map OriginalSeq.Id
    · rw [if_pos hx, hrest]
      constructor
      · exact Or.inr
      · rintro (⟨rfl, h⟩ | h)
        · exact absurd hx h
        · exact h
    · rw [if_neg hx, List.mem_cons, hrest]
      constructor
      · rintro (rfl | h)
        · exact Or.inl ⟨rfl, hx⟩
        · exact Or.inr h
      · rintro (⟨rfl, _⟩ | h)
        · exact Or.inl rfl
        · exact Or.inr h

end ExpandOrder

section ExpandTracking

variable {ω : Type}

theorem collectOseqs_cons (st : ExpandState ω) (o : OriginalSeq) (rest : List OriginalSeq) :
    collectOseqs st (o :: rest)
      = collectOseqs
          (if st.used o.Id then st
           else { st with
                   used := fun k => if k = o.Id then true else st.used k
                   oseqs := st.oseqs ++ [o] })
          rest := by
  unfold collectOseqs
  rw [List.foldl_cons]

theorem collectOseqs_db (xs : List OriginalSeq) :
    ∀ st : ExpandState ω, (collectOseqs st xs).db = st.db := by
  induction xs with
  | nil => intro st; rfl
  | cons o rest ih =>
    intro st
    rw [collectOseqs_cons, ih]
    split <;> rfl

theorem firstById_snoc (seen : List OriginalSeq) (o : OriginalSeq) :
    firstById (seen ++ [o])
      = firstById seen ++ (if o.Id ∈ seen.map OriginalSeq.Id then [] else [o]) := by
  unfold firstById
  rw [keepFirst_append]
  simp only [List.nil_append, keepFirst]

theorem collectOseqs_tracks (xs : List OriginalSeq) :
    ∀ (st : ExpandState ω) (seen : List OriginalSeq), st.Tracks seen →
      (collectOseqs st xs).Tracks (seen ++ xs) := by
  induction xs with
  | nil => intro st seen h; simpa [collectOseqs] using h
  | cons o rest ih =>
    intro st seen h
    rw [collectOseqs_cons]
    have hstep : (if st.used o.Id then st
           else { st with
                   used := fun k => if k = o.Id then true else st.used k
                   oseqs := st.oseqs ++ [o] }).Tracks (seen ++ [o]) := by
      obtain ⟨hos, hused⟩ := h
      have hmem : ∀ k : Int, k ∈ (seen ++ [o]).map OriginalSeq.Id
          ↔ k ∈ seen.map OriginalSeq.Id ∨ k = o.Id := by intro k; simp
      by_cases hu : st.used o.Id = true
      · have hin := (hused o.Id).mp hu
        rw [if_pos hu]
        refine ⟨?_, ?_⟩
        · rw [firstById_snoc, if_pos hin, List.append_nil]
          exact hos
        · intro k
          rw [hmem, hused k]
          constructor
          · exact Or.inl
          · rintro (h1 | h1)
            · exact h1
            · exact h1 ▸ hin
      · have hin : o.Id ∉ seen.map OriginalSeq.Id := fun h1 => hu ((hused o.Id).mpr h1)
        rw [if_neg hu]
        refine ⟨?_, ?_⟩
        · rw [firstById_snoc, if_neg hin]
          exact congrArg (· ++ [o]) hos
        · intro k
          rw [hmem]
          by_cases hk : k = o.Id
          · simp [hk]
          · simp only [hk, if_false, or_false]
            exact hused k
    have := ih _ (seen ++ [o]) hstep
    simpa [List.append_assoc] using this

theorem expandHsp_db
    (Expand : ω → Int → Int → Int → (List OriginalSeq × Option Error) × ω)
    (flag : Float64) (hit : Hit) (st : ExpandState ω) (hsp : Hsp) :
    (expandHsp Expand flag hit st hsp).db
      = (Expand st.db hit.Accession hsp.HitFrom hsp.HitTo).2 := by
  simp only [expandHsp]
  split
  · rfl
  · split
    · rfl
    · rw [collectOseqs_db]

theorem expandHsp_tracks
    (Expand : ω → Int → Int → Int → (List OriginalSeq × Option Error) × ω)
    (flag : Float64) (hit : Hit) (st : ExpandState ω) (hsp : Hsp)
    (seen : List OriginalSeq) (h : st.Tracks seen) :
    (expandHsp Expand flag hit st hsp).Tracks
      (seen ++ passingOseqs flag (expandCalls Expand st.db [(hit, hsp)])) := by
  have h1 : ({ st with db := (Expand st.db hit.Accession hsp.HitFrom hsp.HitTo).2 }
      : ExpandState ω).Tracks seen := h
  simp only [passingOseqs, expandCalls, List.flatMap_cons, List.flatMap_nil, List.append_nil,
    ExpandCall.passes, expandHsp]
  cases he : (Expand st.db hit.Accession hsp.HitFrom hsp.HitTo).1.2 with
  | some e => simpa using h1
  | none =>
    cases hlt : hsp.BitScore.lt flag with
    | true => simpa using h1
    | false =>
      simp only [Option.isNone_none, Bool.not_false, Bool.and_self, if_true,
        Bool.false_eq_true, if_false]
      exact collectOseqs_tracks _ _ _ h1

theorem walk_tracks
    (Expand : ω → Int → Int → Int → (List OriginalSeq × Option Error) × ω)
    (flag : Float64) (ps : List (Hit × Hsp)) :
    ∀ (st : ExpandState ω) (seen : List OriginalSeq), st.Tracks seen →
      (ps.foldl (fun st p => expandHsp Expand flag p.1 st p.2) st).Tracks
        (seen ++ passingOseqs flag (expandCalls Expand st.db ps)) := by
  induction ps with
  | nil => intro st seen h; simpa [passingOseqs, expandCalls] using h
  | cons p rest ih =>
    intro st seen h
    have h1 := expandHsp_tracks Expand flag p.1 st p.2 seen h
    have h2 := ih _ _ h1
    rw [expandHsp_db] at h2
    simp only [passingOseqs, expandCalls, List.flatMap_cons, List.flatMap_nil,
      List.append_nil, List.append_assoc] at h2
    simpa only [List.foldl_cons, passingOseqs, expandCalls, List.flatMap_cons] using h2

theorem hits_foldl_eq_walk
    (Expand : ω → Int → Int → Int → (List OriginalSeq × Option Error) × ω)
    (flag : Float64) (hits : List Hit) :
    ∀ st : ExpandState ω,
      hits.foldl (expandHit Expand flag) st
        = (walkedHsps { Hits := hits }).foldl (fun st p => expandHsp Expand flag p.1 st p.2) st := by
  induction hits with
  | nil => intro st; rfl
  | cons hit rest ih =>
    intro st
    have hw : walkedHsps { Hits := hit :: rest }
        = hit.Hsps.map (fun hsp => (hit, hsp)) ++ walkedHsps { Hits := rest } := by
      simp [walkedHsps]
    rw [List.foldl_cons, ih, hw, List.foldl_append, List.foldl_map]
    rfl

end ExpandTracking

section ExpandOrderClaim

variable {ω : Type}

theorem Float64.lt_irrefl (x : Float64) : x.lt x = false := by
  cases x <;> simp [Float64.lt]

theorem expandCalls_hsps
    (Expand : ω → Int → Int → Int → (List OriginalSeq × Option Error) × ω)
    (ps : List (Hit × Hsp)) :
    ∀ db : ω, (expandCalls Expand db ps).map (fun c => (c.hit, c.hsp)) = ps := by
  induction ps with
  | nil => intro db; rfl
  | cons p rest ih =>
    intro db
    simp only [expandCalls, List.map_cons, ih]

theorem expandCalls_result
    (Expand : ω → Int → Int → Int → (List OriginalSeq × Option Error) × ω)
    (ps : List (Hit × Hsp)) :
    ∀ db : ω, ∀ c ∈ expandCalls Expand db ps,
      ∃ db1, (Expand db1 c.hit.Accession c.hsp.HitFrom c.hsp.HitTo).1 = (c.someOseqs, c.err) := by
  induction ps with
  | nil => intro db c hc; simp [expandCalls] at hc
  | cons p rest ih =>
    intro db c hc
    simp only [expandCalls, List.mem_cons] at hc
    rcases hc with rfl | hc
    · exact ⟨db, rfl⟩
    · exact ih _ c hc

theorem mem_passingOseqs (flag : Float64) (calls : List ExpandCall) (o : OriginalSeq) :
    o ∈ passingOseqs flag calls
      ↔ ∃ c ∈ calls, c.err = none ∧ c.hsp.BitScore.lt flag = false ∧ o ∈ c.someOseqs := by
  simp only [passingOseqs, List.mem_flatMap, ExpandCall.passes]
  constructor
  · rintro ⟨c, hc, ho⟩
    cases he : c.err with
    | some e => simp [he] at ho
    | none =>
      cases hlt : c.hsp.BitScore.lt flag with
      | true => simp [he, hlt] at ho
      | false => exact ⟨c, hc, he, hlt, by simpa [he, hlt] using ho⟩
  · rintro ⟨c, hc, he, hlt, ho⟩
    exact ⟨c, hc, by simpa [he, hlt] using ho⟩

theorem mem_firstById (l : List OriginalSeq) (o : OriginalSeq) :
    o ∈ firstById l ↔ ∃ pre post, l = pre ++ o :: post ∧ ∀ p ∈ pre, p.Id ≠ o.Id := by
  unfold firstById
  rw [mem_keepFirst]
  constructor
  · rintro ⟨pre, post, h1, h2⟩
    refine ⟨pre, post, h1, fun p hp heq => h2 ?_⟩
    simp only [List.nil_append, List.mem_map]
    exact ⟨p, hp, heq⟩
  · rintro ⟨pre, post, h1, h2⟩
    refine ⟨pre, post, h1, ?_⟩
    simp only [List.nil_append, List.mem_map, not_exists, not_and]
    exact fun p hp => h2 p hp

theorem firstById_ids (l : List OriginalSeq) (id : Int) :
    id ∈ (firstById l).map OriginalSeq.Id ↔ id ∈ l.map OriginalSeq.Id := by
  unfold firstById
  rw [keepFirst_ids]
  simp

theorem mem_firstById_of_ids_identify (l : List OriginalSeq)
    (hid : ∀ a ∈ l, ∀ b ∈ l, a.Id = b.Id → a = b) (o : OriginalSeq) :
    o ∈ firstById l ↔ o ∈ l := by
  constructor
  · exact fun h => (keepFirst_sublist l []).subset h
  · intro h
    have hin : o.Id ∈ (firstById l).map OriginalSeq.Id :=
      (firstById_ids l o.Id).mpr (List.mem_map.mpr ⟨o, h, rfl⟩)
    obtain ⟨o1, ho1, heq⟩ := List.mem_map.mp hin
    have := hid o1 ((keepFirst_sublist l []).subset ho1) o h heq
    exact this ▸ ho1

/-- C13: `expandBlastHits` returns exactly the hits that pass the coarse
bit-score threshold, in order of first appearance. For every parsed BLAST
result one `Expand(hit.Accession, hsp.HitFrom, hsp.HitTo)` call is made per
HSP, hits then HSPs in order. The returned slice is the list of the sequences
returned by the error-free calls whose HSP has a bit score not below
`flagCoarseBitScore`, in the order their `Id` is first met when the calls and
then each result are walked in order: a sequence is in the slice exactly when
it is such a sequence and none before it has its `Id`; an `Id` is in the slice
exactly when such a call returned a sequence with that `Id`; and, an id
standing for one original sequence, a sequence is in the slice exactly when
such a call returned it. An HSP below the threshold contributes no sequence
and one exactly at the threshold is kept. -/
theorem expandBlastHits_passing_hits_in_order
    (decode : List Nat → blast × Option Error)
    (Expand : ω → Int → Int → Int → (List OriginalSeq × Option Error) × ω)
    (flagCoarseBitScore : Float64) (db : ω) (blastOut : List Nat)
    (hparsed : (decode blastOut).2 = none) :
    ∃ oseqs : List OriginalSeq,
      (expandBlastHits decode Expand flagCoarseBitScore db blastOut).1 = (some oseqs, none)
      ∧ oseqs = firstById (passingOseqs flagCoarseBitScore
                  (expandCalls Expand db (walkedHsps (decode blastOut).1)))
      ∧ (expandCalls Expand db (walkedHsps (decode blastOut).1)).map (fun c => (c.hit, c.hsp))
          = walkedHsps (decode blastOut).1
      ∧ (∀ c ∈ expandCalls Expand db (walkedHsps (decode blastOut).1),
          ∃ db1, (Expand db1 c.hit.Accession c.hsp.HitFrom c.hsp.HitTo).1
                  = (c.someOseqs, c.err))
      ∧ (∀ o, o ∈ oseqs ↔
          ∃ pre post,
            passingOseqs flagCoarseBitScore
                (expandCalls Expand db (walkedHsps (decode blastOut).1)) = pre ++ o :: post
            ∧ ∀ p ∈ pre, p.Id ≠ o.Id)
      ∧ (∀ o, o ∈ passingOseqs flagCoarseBitScore
                    (expandCalls Expand db (walkedHsps (decode blastOut).1)) ↔
          ∃ c ∈ expandCalls Expand db (walkedHsps (decode blastOut).1),
            c.err = none ∧ c.hsp.BitScore.lt flagCoarseBitScore = false ∧ o ∈ c.someOseqs)
      ∧ (∀ id, id ∈ oseqs.map OriginalSeq.Id ↔
          ∃ c ∈ expandCalls Expand db (walkedHsps (decode blastOut).1),
            c.err = none ∧ c.hsp.BitScore.lt flagCoarseBitScore = false
            ∧ ∃ o ∈ c.someOseqs, o.Id = id)
      ∧ oseqs.Sublist (passingOseqs flagCoarseBitScore
          (expandCalls Expand db (walkedHsps (decode blastOut).1)))
      ∧ ((∀ a ∈ passingOseqs flagCoarseBitScore
                  (expandCalls Expand db (walkedHsps (decode blastOut).1)),
          ∀ b ∈ passingOseqs flagCoarseBitScore
                  (expandCalls Expand db (walkedHsps (decode blastOut).1)),
            a.Id = b.Id → a = b) →
          ∀ o, o ∈ oseqs ↔
            ∃ c ∈ expandCalls Expand db (walkedHsps (decode blastOut).1),
              c.err = none ∧ c.hsp.BitScore.lt flagCoarseBitScore = false ∧ o ∈ c.someOseqs)
      ∧ (∀ c : ExpandCall, c.hsp.BitScore.lt flagCoarseBitScore = true →
          passingOseqs flagCoarseBitScore [c] = [])
      ∧ (∀ c : ExpandCall, c.err = none → c.hsp.BitScore = flagCoarseBitScore →
          passingOseqs flagCoarseBitScore [c] = c.someOseqs) := by
  have hinit : ({ db := db, used := fun _ => false, oseqs := [] } : ExpandState ω).Tracks [] :=
    ⟨rfl, fun k => by simp⟩
  have htr := walk_tracks Expand flagCoarseBitScore (walkedHsps (decode blastOut).1) _ [] hinit
  simp only [List.nil_append] at htr
  refine ⟨((decode blastOut).1.Hits.foldl (expandHit Expand flagCoarseBitScore)
      { db := db, used := fun _ => false, oseqs := [] }).oseqs,
    ?_, ?_, expandCalls_hsps Expand _ db, expandCalls_result Expand _ db, ?_,
    mem_passingOseqs _ _, ?_, ?_, ?_, ?_, ?_⟩
  · simp only [expandBlastHits, hparsed]
  · rw [hits_foldl_eq_walk]
    exact htr.1
  · intro o
    rw [hits_foldl_eq_walk, htr.1]
    exact mem_firstById _ o
  · intro id
    rw [hits_foldl_eq_walk, htr.1, firstById_ids, List.mem_map]
    constructor
    · rintro ⟨o, ho, rfl⟩
      obtain ⟨c, hc, he, hlt, hoc⟩ := (mem_passingOseqs _ _ o).mp ho
      exact ⟨c, hc, he, hlt, o, hoc, rfl⟩
    · rintro ⟨c, hc, he, hlt, o, hoc, rfl⟩
      exact ⟨o, (mem_passingOseqs _ _ o).mpr ⟨c, hc, he, hlt, hoc⟩, rfl⟩
  · rw [hits_foldl_eq_walk, htr.1]
    exact keepFirst_sublist _ []
  · intro hid o
    rw [hits_foldl_eq_walk, htr.1, mem_firstById_of_ids_identify _ hid]
    exact mem_passingOseqs _ _ o
  · intro c hlt
    simp [passingOseqs, ExpandCall.passes, hlt]
  · intro c he heq
    simp [passingOseqs, ExpandCall.passes, he, heq, Float64.lt_irrefl]

end ExpandOrderClaim

/-- `expandBlastHits_passing_hits_in_order` on a result with three HSPs of bit
scores 30, 40 and 50 and the threshold 35: the two sequences of the second HSP
are returned, once each. -/
theorem expandBlastHits_passing_hits_in_order_witness :
    ((fun _ => (twoHits, none)) ([] : List Nat) : blast × Option Error).2 = none
    ∧ (expandBlastHits (fun _ => (twoHits, none)) expandTwo (.fin 35) () []).1
        = (some [{ Name := "a", Residues := [65], Offset := 0, Id := 7 },
                 { Name := "b", Residues := [67], Offset := 0, Id := 9 }], none)
    ∧ ∃ oseqs : List OriginalSeq,
        (expandBlastHits (fun _ => (twoHits, none)) expandTwo (.fin 35) () []).1
          = (some oseqs, none)
        ∧ oseqs = firstById (passingOseqs (.fin 35)
                    (expandCalls expandTwo () (walkedHsps twoHits)))
        ∧ ∀ o, o ∈ oseqs ↔
            ∃ c ∈ expandCalls expandTwo () (walkedHsps twoHits),
              c.err = none ∧ c.hsp.BitScore.lt (.fin 35) = false ∧ o ∈ c.someOseqs :=
  ⟨rfl, by decide,
   (expandBlastHits_passing_hits_in_order (fun _ => (twoHits, none)) expandTwo (.fin 35) () []
      rfl).elim
     (fun oseqs h => ⟨oseqs, h.1, h.2.1, h.2.2.2.2.2.2.2.2.1 (by decide)⟩)⟩

/-! ## Theorems on the errors of `expandBlastHits` -/

section ExpandErrors

variable {ω : Type}

theorem collectOseqs_grows (xs : List OriginalSeq) :
    ∀ st : ExpandState ω, ∃ t, (collectOseqs st xs).oseqs = st.oseqs ++ t := by
  induction xs with
  | nil => intro st; exact ⟨[], by simp [collectOseqs]⟩
  | cons o rest ih =>
    intro st
    rw [collectOseqs_cons]
    by_cases hu : st.used o.Id = true
    · rw [if_pos hu]
      exact ih st
    · rw [if_neg hu]
      obtain ⟨t, ht⟩ := ih ({ st with
          used := fun k => if k = o.Id then true else st.used k
          oseqs := st.oseqs ++ [o] })
      exact ⟨o :: t, by rw [ht]; simp⟩

theorem expandHsp_grows
    (Expand : ω → Int → Int → Int → (List OriginalSeq × Option Error) × ω)
    (flag : Float64) (hit : Hit) (st : ExpandState ω) (hsp : Hsp) :
    ∃ t, (expandHsp Expand flag hit st hsp).oseqs = st.oseqs ++ t := by
  simp only [expandHsp]
  split
  · exact ⟨[], by simp⟩
  · split
    · exact ⟨[], by simp⟩
    · exact collectOseqs_grows _ _

theorem expandHit_grows
    (Expand : ω → Int → Int → Int → (List OriginalSeq × Option Error) × ω)
    (flag : Float64) (hit : Hit) :
    ∀ st : ExpandState ω, ∃ t, (expandHit Expand flag st hit).oseqs = st.oseqs ++ t := by
  unfold expandHit
  induction hit.Hsps with
  | nil => intro st; exact ⟨[], by simp⟩
  | cons hsp rest ih =>
    intro st
    rw [List.foldl_cons]
    obtain ⟨t1, h1⟩ := expandHsp_grows Expand flag hit st hsp
    obtain ⟨t2, h2⟩ := ih (expandHsp Expand flag hit st hsp)
    exact ⟨t1 ++ t2, by rw [h2, h1, List.append_assoc]⟩

theorem expandHits_grows
    (Expand : ω → Int → Int → Int → (List OriginalSeq × Option Error) × ω)
    (flag : Float64) (hits : List Hit) :
    ∀ st : ExpandState ω,
      ∃ t, (hits.foldl (expandHit Expand flag) st).oseqs = st.oseqs ++ t := by
  induction hits with
  | nil => intro st; exact ⟨[], by simp⟩
  | cons hit rest ih =>
    intro st
    rw [List.foldl_cons]
    obtain ⟨t1, h1⟩ := expandHit_grows Expand flag hit st
    obtain ⟨t2, h2⟩ := ih (expandHit Expand flag st hit)
    exact ⟨t1 ++ t2, by rw [h2, h1, List.append_assoc]⟩

/-- C14: `expandBlastHits` fails if and only if the BLAST output cannot be
parsed. When XML decoding fails it returns `(nil, error)`; otherwise it returns
a non-nil, possibly empty, slice with a nil error, whatever the `Expand` calls
return. An HSP whose `Expand` call fails is skipped: the sequences collected
and the ids marked so far stay as they are; and what was collected before an
HSP, a hit, or a run of hits is an initial part of what is collected after
it. -/
theorem expandBlastHits_fails_iff_decode_fails
    (decode : List Nat → blast × Option Error)
    (Expand : ω → Int → Int → Int → (List OriginalSeq × Option Error) × ω)
    (flagCoarseBitScore : Float64) (db : ω) (blastOut : List Nat)
    (st : ExpandState ω) (hit : Hit) (hsp : Hsp) (hits : List Hit) :
    (∀ e, (decode blastOut).2 = some e →
        (expandBlastHits decode Expand flagCoarseBitScore db blastOut).1
          = (none, some ("Could not parse BLAST search results: " ++ e)))
    ∧ ((decode blastOut).2 = none →
        ∃ oseqs, (expandBlastHits decode Expand flagCoarseBitScore db blastOut).1
          = (some oseqs, none))
    ∧ ((expandBlastHits decode Expand flagCoarseBitScore db blastOut).1.1 = none
        ↔ (decode blastOut).2 ≠ none)
    ∧ ((expandBlastHits decode Expand flagCoarseBitScore db blastOut).1.2 ≠ none
        ↔ (decode blastOut).2 ≠ none)
    ∧ ((Expand st.db hit.Accession hsp.HitFrom hsp.HitTo).1.2 ≠ none →
        (expandHsp Expand flagCoarseBitScore hit st hsp).oseqs = st.oseqs
        ∧ (expandHsp Expand flagCoarseBitScore hit st hsp).used = st.used)
    ∧ (∃ t, (expandHsp Expand flagCoarseBitScore hit st hsp).oseqs = st.oseqs ++ t)
    ∧ (∃ t, (hits.foldl (expandHit Expand flagCoarseBitScore) st).oseqs = st.oseqs ++ t) := by
  refine ⟨?_, ?_, ?_, ?_, ?_, expandHsp_grows _ _ _ _ _, expandHits_grows _ _ _ _⟩
  · intro e he
    simp only [expandBlastHits, he]
  · intro hn
    exact ⟨((decode blastOut).1.Hits.foldl (expandHit Expand flagCoarseBitScore)
      { db := db, used := fun _ => false, oseqs := [] }).oseqs,
      by simp only [expandBlastHits, hn]⟩
  · cases hd : (decode blastOut).2 <;> simp [expandBlastHits, hd]
  · cases hd : (decode blastOut).2 <;> simp [expandBlastHits, hd]
  · intro hfail
    cases he : (Expand st.db hit.Accession hsp.HitFrom hsp.HitTo).1.2 with
    | none => exact absurd he hfail
    | some e => simp only [expandHsp, he, and_self]

/-- `expandBlastHits_fails_iff_decode_fails` on a result whose second `Expand`
call fails (the sequences of the first and third hit are returned with a nil
error) and on an output that does not parse. -/
theorem expandBlastHits_fails_iff_decode_fails_witness :
    (∃ oseqs, (expandBlastHits (fun _ => (hitsWithFailure, none)) expandByAccession
                (.fin 0) () []).1 = (some oseqs, none))
    ∧ (expandBlastHits (fun _ => (hitsWithFailure, none)) expandByAccession (.fin 0) () []).1
        = (some [{ Name := "s", Residues := [65], Offset := 0, Id := 0 },
                 { Name := "s", Residues := [65], Offset := 0, Id := 1 }], none)
    ∧ (expandBlastHits (fun _ => (hitsWithFailure, some "unexpected EOF")) expandByAccession
          (.fin 0) () []).1
        = (none, some "Could not parse BLAST search results: unexpected EOF") :=
  ⟨(expandBlastHits_fails_iff_decode_fails (fun _ => (hitsWithFailure, none))
      expandByAccession (.fin 0) () [] { db := (), used := fun _ => false, oseqs := [] }
      { Accession := 3, Hsps := [] } { HitFrom := 1, HitTo := 5, BitScore := .fin 40 }
      hitsWithFailure.Hits).2.1 rfl,
   by decide,
   (expandBlastHits_fails_iff_decode_fails (fun _ => (hitsWithFailure, some "unexpected EOF"))
      expandByAccession (.fin 0) () [] { db := (), used := fun _ => false, oseqs := [] }
      { Accession := 3, Hsps := [] } { HitFrom := 1, HitTo := 5, BitScore := .fin 40 }
      hitsWithFailure.Hits).1 _ rfl⟩

end ExpandErrors

/-! ## Theorems on `Save` -/

section SaveClaims

variable {σ : Type}

/-- C5 as stated fails: on the database that `NewReadCoarseDB` returns, whose
`seqLock` is nil, `Save` panics at `seqLock.RLock()` although every save
method would succeed: it runs no step and returns no value. -/
theorem Save_panics_on_read_database :
    ∃ d, (NewReadCoarseDB okMethods okDB).2.1 = some d
      ∧ (∀ s, saveOutcome okMethods d s = none)
      ∧ CoarseDB.Save okMethods d = none :=
  ⟨_, rfl, fun s => by cases s <;> rfl, rfl⟩

/-- C5 as amended: on a database whose `seqLock` is set, `Save` returns, and
it flushes coarse sequences, then links, then the seed index. Its calls and
error are those of the order `saveFasta`, `saveLinks`, `saveSeeds` (when
`readOnly` is false), then with `plain` set `saveLinksPlain` and
`saveSeedsPlain` (when `readOnly` is false), run up to the first step that
fails; when every step of that order succeeds all of it is run and nil is
returned. Whenever `Save` returns, the calls made are an initial part of that
order; with `readOnly` true neither `saveSeeds` nor `saveSeedsPlain` runs,
whatever `plain` is; with `plain` false neither `saveLinksPlain` nor
`saveSeedsPlain` runs. -/
theorem Save_order (m : Methods σ) (db : CoarseDB σ) :
    (db.seqLock.isSome →
      ∃ r, CoarseDB.Save m db = some r
        ∧ (r.1, r.2.2)
            = runUntilError ((saveOrder db.readOnly db.plain).map
                (fun s => { step := s, err := saveOutcome m db s }))
        ∧ r.2.1 = db
        ∧ ((∀ s ∈ saveOrder db.readOnly db.plain, saveOutcome m db s = none) →
            r.1.map Event.step = saveOrder db.readOnly db.plain ∧ r.2.2 = none))
    ∧ (saveOrder db.readOnly db.plain).take 2 = [Step.saveFasta, Step.saveLinks]
    ∧ (db.readOnly = false →
        (saveOrder db.readOnly db.plain).take 3
          = [Step.saveFasta, Step.saveLinks, Step.saveSeeds])
    ∧ (∀ r, CoarseDB.Save m db = some r →
        (∃ k, r.1.map Event.step = (saveOrder db.readOnly db.plain).take k)
        ∧ (db.readOnly = true →
            Step.saveSeeds ∉ r.1.map Event.step ∧ Step.saveSeedsPlain ∉ r.1.map Event.step)
        ∧ (db.plain = false →
            Step.saveLinksPlain ∉ r.1.map Event.step
            ∧ Step.saveSeedsPlain ∉ r.1.map Event.step)) := by
  refine ⟨?_, by simp [saveOrder], ?_, ?_⟩
  · intro hlock
    obtain ⟨mu, hmu⟩ := Option.isSome_iff_exists.mp hlock
    refine ⟨saveSteps m db, by simp [CoarseDB.Save, hmu], ?_, ?_, saveSteps_all_ok m db⟩
    · rw [saveSteps_eq_runUntilError]
    · rw [saveSteps_eq_runUntilError]
  · intro hro
    simp [saveOrder, hro]
  · intro r hr
    have hr' : r = saveSteps m db := by
      cases hl : db.seqLock with
      | none => simp [CoarseDB.Save, hl] at hr
      | some mu =>
        simp only [CoarseDB.Save, hl, Option.some.injEq] at hr
        exact hr.symm
    subst hr'
    refine ⟨saveSteps_take m db, ?_, ?_⟩
    · intro hro
      constructor <;> intro hmem <;> have := saveSteps_mem m db _ hmem <;>
        cases hpl : db.plain <;> simp [saveOrder, hro, hpl] at this
    · intro hpl
      constructor <;> intro hmem <;> have := saveSteps_mem m db _ hmem <;>
        cases hro : db.readOnly <;> simp [saveOrder, hro, hpl] at this

/-- `Save_order` on a read-only database with a lock and the plain flag set,
with methods that succeed: the link mirror is written, the seed files are
not, and nil is returned. -/
theorem Save_order_witness :
    readOnlyPlainDB.seqLock.isSome
    ∧ ∃ r, CoarseDB.Save okMethods readOnlyPlainDB = some r
        ∧ r.1.map Event.step = [Step.saveFasta, Step.saveLinks, Step.saveLinksPlain]
        ∧ r.2.2 = none
        ∧ Step.saveSeeds ∉ r.1.map Event.step
        ∧ Step.saveSeedsPlain ∉ r.1.map Event.step :=
  ⟨rfl,
   ((Save_order okMethods readOnlyPlainDB).1 rfl).elim
     (fun r h =>
       ⟨r, h.1, (h.2.2.2 (by decide)).1, (h.2.2.2 (by decide)).2,
        (((Save_order okMethods readOnlyPlainDB).2.2.2 r h.1).2.1 rfl).1,
        (((Save_order okMethods readOnlyPlainDB).2.2.2 r h.1).2.1 rfl).2⟩)⟩

end SaveClaims

/-! ## Theorems on the coarse store -/

section CoarseStoreTheorems

variable {σ : Type}

theorem Add_of_lock (seedsAdd : CoarseDB σ → Int → CoarseSeq → σ) (db : CoarseDB σ)
    (oseq : List Nat) (h : db.seqLock.isSome) :
    db.Add seedsAdd oseq
      = some (((db.Seqs.length : Int), NewCoarseSeq (db.Seqs.length : Int) "" oseq),
          { db with
              Seqs := db.Seqs ++ [NewCoarseSeq (db.Seqs.length : Int) "" oseq]
              Seeds := seedsAdd
                { db with Seqs := db.Seqs ++ [NewCoarseSeq (db.Seqs.length : Int) "" oseq] }
                (db.Seqs.length : Int) (NewCoarseSeq (db.Seqs.length : Int) "" oseq) }) := by
  obtain ⟨mu, hmu⟩ := Option.isSome_iff_exists.mp h
  simp only [CoarseDB.Add, hmu]

theorem Add_some (seedsAdd : CoarseDB σ → Int → CoarseSeq → σ) (db : CoarseDB σ)
    (oseq : List Nat) (r : (Int × CoarseSeq) × CoarseDB σ) (h : db.Add seedsAdd oseq = some r) :
    db.seqLock.isSome
    ∧ r.1 = ((db.Seqs.length : Int), NewCoarseSeq (db.Seqs.length : Int) "" oseq)
    ∧ r.2.Seqs = db.Seqs ++ [NewCoarseSeq (db.Seqs.length : Int) "" oseq]
    ∧ r.2.seqLock = db.seqLock := by
  cases hl : db.seqLock with
  | none => simp [CoarseDB.Add, hl] at h
  | some mu =>
    have hlock : db.seqLock.isSome := by simp [hl]
    rw [Add_of_lock seedsAdd db oseq hlock, Option.some.injEq] at h
    subst h
    exact ⟨rfl, rfl, rfl, hl⟩

theorem addAll_cons_some (seedsAdd : CoarseDB σ → Int → CoarseSeq → σ) (db : CoarseDB σ)
    (oseq : List Nat) (rest : List (List Nat)) (rs : List (Int × CoarseSeq) × CoarseDB σ)
    (h : addAll seedsAdd db (oseq :: rest) = some rs) :
    ∃ r rs1, db.Add seedsAdd oseq = some r ∧ addAll seedsAdd r.2 rest = some rs1
      ∧ rs = (r.1 :: rs1.1, rs1.2) := by
  simp only [addAll] at h
  cases hA : db.Add seedsAdd oseq with
  | none => simp [hA] at h
  | some r =>
    cases hB : addAll seedsAdd r.2 rest with
    | none => simp [hA, hB] at h
    | some rs1 =>
      simp only [hA, hB, Option.some.injEq] at h
      exact ⟨r, rs1, rfl, hB, h.symm⟩

theorem addAll_of_lock (seedsAdd : CoarseDB σ → Int → CoarseSeq → σ) (oseqs : List (List Nat)) :
    ∀ db : CoarseDB σ, db.seqLock.isSome → ∃ rs, addAll seedsAdd db oseqs = some rs := by
  induction oseqs with
  | nil => intro db _; exact ⟨_, rfl⟩
  | cons oseq rest ih =>
    intro db h
    obtain ⟨r, hr⟩ : ∃ r, db.Add seedsAdd oseq = some r := ⟨_, Add_of_lock seedsAdd db oseq h⟩
    have hl := (Add_some seedsAdd db oseq r hr).2.2.2
    obtain ⟨rs1, h1⟩ := ih r.2 (hl ▸ h)
    exact ⟨(r.1 :: rs1.1, rs1.2), by simp only [addAll, hr, h1]⟩

theorem addAll_some (seedsAdd : CoarseDB σ → Int → CoarseSeq → σ) (oseqs : List (List Nat)) :
    ∀ (db : CoarseDB σ) (rs : List (Int × CoarseSeq) × CoarseDB σ),
      addAll seedsAdd db oseqs = some rs →
        rs.1.map Prod.fst = (List.range' db.Seqs.length oseqs.length).map Int.ofNat
        ∧ rs.2.Seqs.take db.Seqs.length = db.Seqs
        ∧ rs.2.Seqs.length = db.Seqs.length + oseqs.length
        ∧ rs.2.seqLock = db.seqLock := by
  induction oseqs with
  | nil =>
    intro db rs h
    simp only [addAll, Option.some.injEq] at h
    subst h
    simp
  | cons oseq rest ih =>
    intro db rs h
    obtain ⟨r, rs1, hA, hB, rfl⟩ := addAll_cons_some seedsAdd db oseq rest rs h
    obtain ⟨_, hr1, hr2, hr3⟩ := Add_some seedsAdd db oseq r hA
    obtain ⟨i1, i2, i3, i4⟩ := ih r.2 rs1 hB
    rw [hr2] at i1 i2 i3
    refine ⟨?_, ?_, ?_, i4.trans hr3⟩
    · simp only [List.map_cons, List.length_cons, List.range'_succ, i1, hr1]
      simp
    · have h2 := congrArg (List.take db.Seqs.length) i2
      rw [List.take_take] at h2
      simpa using h2
    · simp only [i3, List.length_append, List.length_cons, List.length_nil]
      omega

theorem CoarseSeqGet_of_entry (db : CoarseDB σ) (k : Nat) (c : CoarseSeq)
    (hlock : db.seqLock.isSome) (h : db.Seqs[k]? = some c) :
    db.CoarseSeqGet (k : Int) = some (c, db) := by
  obtain ⟨mu, hmu⟩ := Option.isSome_iff_exists.mp hlock
  simp [CoarseDB.CoarseSeqGet, hmu, h]

theorem lock_of_NewWriteCoarseDB (m : Methods σ) (appnd : Bool) (db : DB) (d : CoarseDB σ)
    (h : (NewWriteCoarseDB m appnd db).2.1 = some d) : d.seqLock.isSome := by
  simp only [NewWriteCoarseDB] at h
  obtain ⟨_, hd⟩ := construct_some _ _ _ h
  rw [hd]
  exact keeps_andThen (I := fun c => c.seqLock.isSome) (fun _ h => h)
    (keeps_andThen (fun _ h => h)
      (keeps_andThen (fun _ h => h)
        (keeps_andThen
          (keeps_onlyIf _ (keeps_andThen (fun _ h => h) (fun _ h => h)))
          (keeps_onlyIf _
            (keeps_andThen (fun _ h => h)
              (keeps_andThen (fun _ h => h) (fun _ h => h)))))))
    _ rfl

/-- C1 as stated fails: on the database that `NewReadCoarseDB` returns, whose
`seqLock` is nil, `Add` panics at `seqLock.Lock()`: it returns no id and adds
no sequence. -/
theorem Add_panics_on_read_database :
    ∃ d, (NewReadCoarseDB okMethods okDB).2.1 = some d
      ∧ d.Add (fun c _ _ => c.Seeds) [71] = none :=
  ⟨_, rfl, rfl⟩

/-- C1 as amended: for every `CoarseDB` state whose `seqLock` is set, as in
every database that `NewWriteCoarseDB` returns, and every `oseq`, `Add`
returns an id equal to the number of coarse sequences held before the call
and leaves exactly one more sequence in the store (`len(Seqs) = id + 1`);
successive `Add` calls on an empty store all return, with the ids
0, 1, ..., n-1 in that order, none skipped and none repeated. -/
theorem Add_assigns_dense_ids (seedsAdd : CoarseDB σ → Int → CoarseSeq → σ)
    (db : CoarseDB σ) (oseq : List Nat) (oseqs : List (List Nat))
    (hlock : db.seqLock.isSome) :
    (∃ r, db.Add seedsAdd oseq = some r
      ∧ r.1.1 = (db.Seqs.length : Int)
      ∧ (r.2.Seqs.length : Int) = r.1.1 + 1
      ∧ r.2.seqLock = db.seqLock)
    ∧ (∃ rs, addAll seedsAdd { db with Seqs := [] } oseqs = some rs
        ∧ rs.1.map Prod.fst = (List.range oseqs.length).map Int.ofNat
        ∧ (rs.1.map Prod.fst).Nodup)
    ∧ (∀ (m : Methods σ) (appnd : Bool) (d0 : DB) (d : CoarseDB σ),
        (NewWriteCoarseDB m appnd d0).2.1 = some d → d.seqLock.isSome) := by
  refine ⟨?_, ?_, lock_of_NewWriteCoarseDB⟩
  · refine ⟨_, Add_of_lock seedsAdd db oseq hlock, rfl, ?_, rfl⟩
    simp
  · obtain ⟨rs, hrs⟩ := addAll_of_lock seedsAdd oseqs ({ db with Seqs := [] } : CoarseDB σ) hlock
    have hids : rs.1.map Prod.fst = (List.range oseqs.length).map Int.ofNat := by
      rw [(addAll_some seedsAdd oseqs _ rs hrs).1, List.range_eq_range']
      rfl
    refine ⟨rs, hrs, hids, ?_⟩
    rw [hids]
    exact (List.nodup_range _).map (fun a b h => Int.ofNat.inj h)

/-- `Add_assigns_dense_ids` on a store with one sequence and an allocated
lock: the id returned is 1; and three calls on the emptied store return 0, 1,
2. -/
theorem Add_assigns_dense_ids_witness :
    oneSeqDB.seqLock.isSome
    ∧ (∃ r, oneSeqDB.Add (fun c _ _ => c.Seeds) [71] = some r ∧ r.1.1 = 1
        ∧ r.2.Seqs.length = 2)
    ∧ (∃ rs, addAll (fun c _ _ => c.Seeds) { oneSeqDB with Seqs := [] } [[65], [67], [71]]
          = some rs
        ∧ rs.1.map Prod.fst = [0, 1, 2]) :=
  ⟨rfl,
   (Add_assigns_dense_ids (fun c _ _ => c.Seeds) oneSeqDB [71] [[65], [67], [71]] rfl).1.elim
     (fun r h => ⟨r, h.1, h.2.1, by have := h.2.2.1; rw [h.2.1] at this; exact_mod_cast this⟩),
   (Add_assigns_dense_ids (fun c _ _ => c.Seeds) oneSeqDB [71] [[65], [67], [71]] rfl).2.1.elim
     (fun rs h => ⟨rs, h.1, h.2.1⟩)⟩

/-- C2: if `Add(oseq)` returns `(id, corSeq)` then `corSeq` is the coarse
sequence built from `id` and `oseq`, an immediately following
`CoarseSeqGet(id)` returns that `corSeq`, and after any number of further
`Add` calls, which all return, it still returns it. -/
theorem CoarseSeqGet_after_Add (seedsAdd : CoarseDB σ → Int → CoarseSeq → σ)
    (db : CoarseDB σ) (oseq : List Nat) (more : List (List Nat))
    (r : (Int × CoarseSeq) × CoarseDB σ) (hr : db.Add seedsAdd oseq = some r) :
    r.1.2 = NewCoarseSeq r.1.1 "" oseq
    ∧ r.2.CoarseSeqGet r.1.1 = some (r.1.2, r.2)
    ∧ ∃ rs, addAll seedsAdd r.2 more = some rs
        ∧ rs.2.CoarseSeqGet r.1.1 = some (r.1.2, rs.2) := by
  obtain ⟨hlock, hr1, hr2, hr3⟩ := Add_some seedsAdd db oseq r hr
  have hlock2 : r.2.seqLock.isSome := hr3 ▸ hlock
  have hget : r.2.Seqs[db.Seqs.length]? = some r.1.2 := by
    rw [hr2, hr1]
    simp
  have hid : r.1.1 = ((db.Seqs.length : Nat) : Int) := by rw [hr1]
  refine ⟨by rw [hr1], ?_, ?_⟩
  · rw [hid]
    exact CoarseSeqGet_of_entry r.2 _ _ hlock2 hget
  · obtain ⟨rs, hrs⟩ := addAll_of_lock seedsAdd more r.2 hlock2
    obtain ⟨_, htake, _, hl⟩ := addAll_some seedsAdd more r.2 rs hrs
    refine ⟨rs, hrs, ?_⟩
    have hlt : db.Seqs.length < r.2.Seqs.length := by rw [hr2]; simp
    have hentry : rs.2.Seqs[db.Seqs.length]? = some r.1.2 := by
      rw [← hget, ← htake, List.getElem?_take, if_pos hlt]
    rw [hid]
    exact CoarseSeqGet_of_entry rs.2 _ _ (hl ▸ hlock2) hentry

/-- `CoarseSeqGet_after_Add` on a store with one sequence: the sequence added
with id 1 is returned by `CoarseSeqGet(1)` after two more `Add` calls. -/
theorem CoarseSeqGet_after_Add_witness :
    oneSeqDB.Add (fun c _ _ => c.Seeds) [71]
        = some ((1, NewCoarseSeq 1 "" [71]),
            { oneSeqDB with Seqs := oneSeqDB.Seqs ++ [NewCoarseSeq 1 "" [71]] })
    ∧ ∃ rs, addAll (fun c _ _ => c.Seeds)
              { oneSeqDB with Seqs := oneSeqDB.Seqs ++ [NewCoarseSeq 1 "" [71]] } [[65], [67]]
            = some rs
        ∧ rs.2.CoarseSeqGet 1 = some (NewCoarseSeq 1 "" [71], rs.2) :=
  ⟨rfl,
   (CoarseSeqGet_after_Add (fun c _ _ => c.Seeds) oneSeqDB [71] [[65], [67]] _ rfl).2.2⟩

/-- C3: `Add` is append-only. With n sequences before a call of `Add` that
returns, the entry at every index i < n after it is the entry that was at
index i before (through the slice and through `CoarseSeqGet`), the old store
is the first n entries of the new one, and a `CoarseSeqGet` that returns
leaves the database as it was. -/
theorem Add_append_only (seedsAdd : CoarseDB σ → Int → CoarseSeq → σ) (db : CoarseDB σ)
    (oseq : List Nat) (i : Nat) (r : (Int × CoarseSeq) × CoarseDB σ)
    (h : i < db.Seqs.length) (hr : db.Add seedsAdd oseq = some r) :
    r.2.Seqs[i]? = db.Seqs[i]?
    ∧ (∃ c, db.CoarseSeqGet (i : Int) = some (c, db) ∧ r.2.CoarseSeqGet (i : Int) = some (c, r.2))
    ∧ r.2.Seqs.take db.Seqs.length = db.Seqs
    ∧ db.Seqs.length ≤ r.2.Seqs.length
    ∧ ∀ (j : Int) (res : CoarseSeq × CoarseDB σ), db.CoarseSeqGet j = some res → res.2 = db := by
  obtain ⟨hlock, _, hr2, hr3⟩ := Add_some seedsAdd db oseq r hr
  have hi : r.2.Seqs[i]? = db.Seqs[i]? := by
    rw [hr2, List.getElem?_append_left h]
  have hc : db.Seqs[i]? = some db.Seqs[i] := List.getElem?_eq_getElem h
  refine ⟨hi, ⟨db.Seqs[i], CoarseSeqGet_of_entry db i _ hlock hc,
    CoarseSeqGet_of_entry r.2 i _ (hr3 ▸ hlock) (hi.trans hc)⟩, ?_, ?_, ?_⟩
  · simp [hr2]
  · simp [hr2]
  · intro j res hres
    obtain ⟨mu, hmu⟩ := Option.isSome_iff_exists.mp hlock
    simp only [CoarseDB.CoarseSeqGet, hmu] at hres
    split at hres
    · obtain ⟨c, _, hc2⟩ := Option.map_eq_some'.mp hres
      rw [← hc2]
    · cases hres

/-- `Add_append_only` on a store with one sequence, at index 0. -/
theorem Add_append_only_witness :
    (0 : Nat) < oneSeqDB.Seqs.length
    ∧ oneSeqDB.Add (fun c _ _ => c.Seeds) [71]
        = some ((1, NewCoarseSeq 1 "" [71]),
            { oneSeqDB with Seqs := oneSeqDB.Seqs ++ [NewCoarseSeq 1 "" [71]] })
    ∧ ({ oneSeqDB with Seqs := oneSeqDB.Seqs ++ [NewCoarseSeq 1 "" [71]] }
          : CoarseDB Unit).Seqs[0]? = oneSeqDB.Seqs[0]?
    ∧ ∃ c, oneSeqDB.CoarseSeqGet ((0 : Nat) : Int) = some (c, oneSeqDB)
        ∧ ({ oneSeqDB with Seqs := oneSeqDB.Seqs ++ [NewCoarseSeq 1 "" [71]] }
              : CoarseDB Unit).CoarseSeqGet ((0 : Nat) : Int)
            = some (c, { oneSeqDB with Seqs := oneSeqDB.Seqs ++ [NewCoarseSeq 1 "" [71]] }) :=
  ⟨by decide, rfl,
   (Add_append_only (fun c _ _ => c.Seeds) oneSeqDB [71] 0 _ (by decide) rfl).1,
   (Add_append_only (fun c _ _ => c.Seeds) oneSeqDB [71] 0 _ (by decide) rfl).2.1⟩

end CoarseStoreTheorems

/-! ## Theorems on the seed index and the store -/

section SeedsAndStore

theorem Add_log (db : CoarseDB SeedsLog) (oseq : List Nat)
    (r : (Int × CoarseSeq) × CoarseDB SeedsLog) (h : db.Add SeedsLog.Add oseq = some r) :
    r.2.Seeds
      = db.Seeds ++ [{ id := r.1.1, seq := r.1.2, lenSeqs := db.Seqs.length + 1,
                       entry := some r.1.2 }] := by
  have hlock := (Add_some SeedsLog.Add db oseq r h).1
  rw [Add_of_lock SeedsLog.Add db oseq hlock, Option.some.injEq] at h
  subst h
  simp [SeedsLog.Add]

theorem Add_mirror (db : CoarseDB SeedsLog) (oseq : List Nat)
    (r : (Int × CoarseSeq) × CoarseDB SeedsLog) (hr : db.Add SeedsLog.Add oseq = some r)
    (h : SeedsMirrorStore db) : SeedsMirrorStore r.2 := by
  obtain ⟨hlen, hk⟩ := h
  obtain ⟨_, hr1, hr2, _⟩ := Add_some SeedsLog.Add db oseq r hr
  have hlog := Add_log db oseq r hr
  refine ⟨by simp [hlog, hr2, hlen], ?_⟩
  intro k
  rw [hlog, hr2]
  rcases Nat.lt_trichotomy k db.Seqs.length with hlt | heq | hgt
  · rw [List.getElem?_append_left (by omega), List.getElem?_append_left hlt]
    exact hk k
  · subst heq
    rw [List.getElem?_append_right (by omega), List.getElem?_append_right (by omega)]
    simp [hlen, hr1]
  · rw [List.getElem?_eq_none (by simp; omega), List.getElem?_eq_none (by simp; omega)]
    rfl

theorem addAll_mirror (oseqs : List (List Nat)) :
    ∀ (db : CoarseDB SeedsLog) (rs : List (Int × CoarseSeq) × CoarseDB SeedsLog),
      addAll SeedsLog.Add db oseqs = some rs → SeedsMirrorStore db → SeedsMirrorStore rs.2 := by
  induction oseqs with
  | nil =>
    intro db rs h hm
    simp only [addAll, Option.some.injEq] at h
    subst h
    exact hm
  | cons oseq rest ih =>
    intro db rs h hm
    obtain ⟨r, rs1, hA, hB, rfl⟩ := addAll_cons_some SeedsLog.Add db oseq rest rs h
    exact ih r.2 rs1 hB (Add_mirror db oseq r hA hm)

theorem mirror_call (db : CoarseDB SeedsLog) (h : SeedsMirrorStore db) (call : SeedsCall)
    (hc : call ∈ db.Seeds) :
    ∃ k : Nat, db.Seeds[k]? = some call ∧ db.Seqs[k]? = some call.seq
      ∧ call.id = (k : Int) ∧ call.lenSeqs = k + 1 ∧ call.entry = some call.seq := by
  obtain ⟨k, hk⟩ := List.mem_iff_getElem?.mp hc
  have := h.2 k
  rw [hk] at this
  cases hs : db.Seqs[k]? with
  | none => rw [hs] at this; cases this
  | some c =>
    rw [hs] at this
    simp only [Option.map_some', Option.some.injEq] at this
    subst this
    exact ⟨k, hk, hs, rfl, rfl, rfl⟩

end SeedsAndStore

section SeedsClaim

/-- C12: the seed index only ever refers to coarse sequences that already
exist. A call of `Add` that returns makes exactly one `Seeds.Add` call, with
the returned id and coarse sequence, and makes it after the append: when the
call is made the store has one entry more than before `Add` and its entry at
the id is that sequence. In every state reached from an empty store by `Add`
calls, every `Seeds.Add` call made so far was made with an id below
`len(Seqs)` at the time of the call and with the store's entry at that id at
the time, which is still the store's entry at that id; and the calls made are
exactly one for each coarse id `0..len(Seqs)-1`, in that order. On an empty
store whose `seqLock` is set every run of `Add` calls reaches such a state. -/
theorem seeds_refer_to_stored_sequences (db0 db : CoarseDB SeedsLog) (oseq : List Nat)
    (oseqs : List (List Nat)) (r : (Int × CoarseSeq) × CoarseDB SeedsLog)
    (rs : List (Int × CoarseSeq) × CoarseDB SeedsLog)
    (hr : db.Add SeedsLog.Add oseq = some r)
    (hrs : addAll SeedsLog.Add { db0 with Seqs := [], Seeds := [] } oseqs = some rs) :
    r.2.Seeds
        = db.Seeds ++ [{ id := r.1.1, seq := r.1.2, lenSeqs := db.Seqs.length + 1,
                         entry := some r.1.2 }]
    ∧ (∀ call ∈ rs.2.Seeds,
        call.id < (call.lenSeqs : Int)
        ∧ call.entry = some call.seq
        ∧ call.lenSeqs ≤ rs.2.Seqs.length
        ∧ 0 ≤ call.id
        ∧ rs.2.Seqs[call.id.toNat]? = some call.seq)
    ∧ rs.2.Seeds.map SeedsCall.id = (List.range rs.2.Seqs.length).map Int.ofNat
    ∧ SeedsMirrorStore rs.2
    ∧ (db0.seqLock.isSome →
        ∀ more, ∃ rs1, addAll SeedsLog.Add { db0 with Seqs := [], Seeds := [] } more
          = some rs1) := by
  have hE : SeedsMirrorStore ({ db0 with Seqs := [], Seeds := [] } : CoarseDB SeedsLog) :=
    ⟨rfl, fun k => by simp⟩
  have hm := addAll_mirror oseqs _ rs hrs hE
  refine ⟨Add_log db oseq r hr, ?_, ?_, hm, ?_⟩
  · intro call hc
    obtain ⟨k, hk, hs, hid, hlen, hentry⟩ := mirror_call rs.2 hm call hc
    have hklt : k < rs.2.Seqs.length := by
      by_contra hge
      rw [List.getElem?_eq_none (by omega)] at hs
      cases hs
    refine ⟨by rw [hid, hlen]; push_cast; omega, hentry, by omega, by rw [hid]; omega, ?_⟩
    rw [hid]
    simpa using hs
  · apply List.ext_getElem?
    intro k
    rw [List.getElem?_map, hm.2 k, List.getElem?_map]
    by_cases hk : k < rs.2.Seqs.length
    · rw [List.getElem?_eq_getElem hk, List.getElem?_range hk]
      rfl
    · rw [List.getElem?_eq_none (by omega), List.getElem?_eq_none (by simp; omega)]
      rfl
  · intro hlock more
    exact addAll_of_lock SeedsLog.Add more _ hlock

end SeedsClaim

section SeedsClaimWitness

/-- `seeds_refer_to_stored_sequences` for one `Add` on an empty store and for
three `Add` calls on it: the calls recorded have the ids 0, 1, 2, each made
when the store already held the sequence. -/
theorem seeds_refer_to_stored_sequences_witness :
    (∃ r, emptyLogDB.Add SeedsLog.Add [65] = some r
      ∧ r.2.Seeds = [{ id := 0, seq := NewCoarseSeq 0 "" [65], lenSeqs := 1,
                       entry := some (NewCoarseSeq 0 "" [65]) }])
    ∧ ∃ rs, addAll SeedsLog.Add { emptyLogDB with Seqs := [], Seeds := [] } [[65], [67], [71]]
          = some rs
        ∧ rs.2.Seeds.map SeedsCall.id = [0, 1, 2]
        ∧ ∀ call ∈ rs.2.Seeds,
            call.id < (call.lenSeqs : Int)
            ∧ call.entry = some call.seq
            ∧ call.lenSeqs ≤ rs.2.Seqs.length
            ∧ 0 ≤ call.id
            ∧ rs.2.Seqs[call.id.toNat]? = some call.seq :=
  ⟨⟨_, rfl,
     (seeds_refer_to_stored_sequences emptyLogDB emptyLogDB [65] [[65], [67], [71]] _ _
        rfl rfl).1⟩,
   _, rfl,
   (seeds_refer_to_stored_sequences emptyLogDB emptyLogDB [65] [[65], [67], [71]] _ _
      rfl rfl).2.2.1,
   (seeds_refer_to_stored_sequences emptyLogDB emptyLogDB [65] [[65], [67], [71]] _ _
      rfl rfl).2.1⟩

end SeedsClaimWitness

end Cablastp
